/-
Verification of `improver/weighted_blend.py` (weighted blend of percentile
and scalar fields).

The development shallowly embeds the module's code in Lean:

* floating-point values are modelled by `ℚ` (the algorithms use only field
  operations and comparisons);
* `np.interp`, `np.sort` and the small slice of `numpy`/`iris` array and
  cube behaviour that the module calls into are modelled from their
  documented semantics (they are external collaborators of the module, not
  part of its source);
* the module's own functions — `PercentileBlendingAggregator.aggregate`,
  `PercentileBlendingAggregator.blend_percentiles`,
  `WeightedBlendAcrossWholeDimension.process`,
  `TriangularWeightedBlendAcrossAdjacentPoints.process` — are translated
  statement by statement from the Python source.
-/
import Mathlib

namespace Improver

/-! ## Numpy primitives (modelled from numpy semantics)

`np.interp(x, xp, fp)` with ascending sample points `xp`:

* a query left of `xp[0]` returns `fp[0]`;
* a query at or right of the last sample returns the last value;
* a query equal to some sample `xp[j]` returns `fp[j]` for the largest
  such `j`;
* a query strictly inside an interval is linearly interpolated.

`interpPt` realises exactly that walk for a single query; mismatched or
empty sample lists (which `np.interp` rejects) fall to a default of `0`.
-/

def interpPt (x : ℚ) : List ℚ → List ℚ → ℚ
  | x0 :: x1 :: xs, y0 :: y1 :: ys =>
      if x < x0 then y0
      else if x < x1 then y0 + (y1 - y0) * (x - x0) / (x1 - x0)
      else interpPt x (x1 :: xs) (y1 :: ys)
  | [_], [y0] => y0
  | _, _ => 0

/-- Vectorised `np.interp`: interpolate every query of `xs` against the
curve `(xp, fp)`. -/
def interpList (xs xp fp : List ℚ) : List ℚ :=
  xs.map fun x => interpPt x xp fp

/-- `np.sort` of a one-dimensional array: ascending sort. -/
def npSort (l : List ℚ) : List ℚ :=
  List.insertionSort (· ≤ ·) l

/-! ## The percentile blending kernel

`PercentileBlendingAggregator.blend_percentiles` (source lines 154–211).
`perc_values` is the matrix of percentile values with one row per slice of
the blend coordinate, `percentiles` the shared vector of percentile
levels, `weights` one weight per slice.
-/

namespace PercentileBlendingAggregator

/-- The value of `recalc_values_in_pdf` in iteration `(i, j)` of the double
loop of `blend_percentiles` (source lines 187–194): the probabilities of
slice `i`'s values inside slice `j`'s pdf, which are the raw percentile
levels when `i = j` and are otherwise obtained by linear interpolation of
row `i` against the curve `(row j, percentiles)`. -/
def recalcValuesInPdf (perc_values : List (List ℚ)) (percentiles : List ℚ)
    (i j : ℕ) : List ℚ :=
  if i = j then percentiles
  else interpList (perc_values.getD i []) (perc_values.getD j []) percentiles

/-- Row `i` of `combined_pdf` after the double loop (source lines 179–197):
starting from a row of zeros, every iteration `j` adds
`recalc_values_in_pdf * weights[j]` elementwise. -/
def combinedPdfRow (perc_values : List (List ℚ)) (percentiles weights : List ℚ)
    (i : ℕ) : List ℚ :=
  (List.range perc_values.length).foldl
    (fun acc j =>
      List.zipWith (fun a r => a + r * weights.getD j 0) acc
        (recalcValuesInPdf perc_values percentiles i j))
    (List.replicate percentiles.length 0)

/-- `combined_perc_thres_data` (source line 201): all threshold values of
all blended slices, flattened and sorted ascending. -/
def combinedPercThresData (perc_values : List (List ℚ)) : List ℚ :=
  npSort perc_values.flatten

/-- `combined_perc_values` (source line 204): all rows of `combined_pdf`,
flattened and sorted ascending. -/
def combinedPercValues (perc_values : List (List ℚ))
    (percentiles weights : List ℚ) : List ℚ :=
  npSort (((List.range perc_values.length).map
    (combinedPdfRow perc_values percentiles weights)).flatten)

/-- `PercentileBlendingAggregator.blend_percentiles` (source lines
154–211): build `combined_pdf`, sort the flattened input values and the
flattened combined pdf, and interpolate the original percentile levels
back through the resulting curve. -/
def blend_percentiles (perc_values : List (List ℚ))
    (percentiles weights : List ℚ) : List ℚ :=
  interpList percentiles (combinedPercValues perc_values percentiles weights)
    (combinedPercThresData perc_values)

end PercentileBlendingAggregator

/-! ## Interpolation lemmas -/

/-- Unfolding `interpPt` past an interval that lies entirely at or left of
the query. -/
theorem interpPt_step (x x0 x1 y0 y1 : ℚ) (xs ys : List ℚ)
    (h0 : ¬ x < x0) (h1 : ¬ x < x1) :
    interpPt x (x0 :: x1 :: xs) (y0 :: y1 :: ys)
      = interpPt x (x1 :: xs) (y1 :: ys) := by
  simp [interpPt, h0, h1]

/-- In a strictly ascending list, the head is a lower bound of every
element. -/
theorem head_le_get_of_chain (a : ℚ) (t : List ℚ)
    (h : (a :: t).Chain' (· < ·)) :
    ∀ k (hk : k < (a :: t).length), a ≤ (a :: t).get ⟨k, hk⟩ := by
  have hp : (a :: t).Pairwise (· < ·) := List.chain'_iff_pairwise.mp h
  intro k hk
  match k with
  | 0 => simp
  | k + 1 =>
    have hk' : k < t.length := by simpa using hk
    have hmem : (a :: t).get ⟨k + 1, hk⟩ ∈ t := List.get_mem t k hk'
    exact le_of_lt ((List.pairwise_cons.mp hp).1 _ hmem)

/-- `np.interp` evaluated exactly at the `k`-th sample of a strictly
ascending sample list returns the `k`-th value. -/
theorem interpPt_knot :
    ∀ (xp fp : List ℚ), xp.Chain' (· < ·) → xp.length = fp.length →
      ∀ k (hk : k < xp.length) (hk2 : k < fp.length),
        interpPt (xp.get ⟨k, hk⟩) xp fp = fp.get ⟨k, hk2⟩
  | [], _, _, _, k, hk, _ => absurd hk (by simp)
  | [x0], [y0], _, _, 0, _, _ => by simp [interpPt]
  | [x0], y0 :: y1 :: ys, _, hlen, _, _, _ => by simp at hlen
  | x0 :: x1 :: xs, [], _, hlen, _, _, _ => by simp at hlen
  | x0 :: x1 :: xs, [y0], _, hlen, _, _, _ => by simp at hlen
  | x0 :: x1 :: xs, y0 :: y1 :: ys, hchain, hlen, 0, hk, hk2 => by
    have h01 : x0 < x1 := (List.chain'_cons.mp hchain).1
    simp only [List.get]
    simp [interpPt, h01, not_lt.mpr (le_refl x0)]
  | x0 :: x1 :: xs, y0 :: y1 :: ys, hchain, hlen, k + 1, hk, hk2 => by
    have htail : (x1 :: xs).Chain' (· < ·) := (List.chain'_cons.mp hchain).2
    have h01 : x0 < x1 := (List.chain'_cons.mp hchain).1
    have hk' : k < (x1 :: xs).length := by simpa using hk
    have hx1le : x1 ≤ (x1 :: xs).get ⟨k, hk'⟩ := head_le_get_of_chain x1 xs htail k hk'
    have hget : (x0 :: x1 :: xs).get ⟨k + 1, hk⟩ = (x1 :: xs).get ⟨k, hk'⟩ := rfl
    rw [hget, interpPt_step _ _ _ _ _ _ _
      (not_lt.mpr (le_trans (le_of_lt h01) hx1le)) (not_lt.mpr hx1le)]
    exact interpPt_knot (x1 :: xs) (y1 :: ys) htail (by simpa using hlen) k hk'
      (by simpa using hk2)

/-- Interpolating a strictly ascending list against itself recovers the
value list. -/
theorem interpList_self (v fp : List ℚ) (hv : v.Chain' (· < ·))
    (hlen : v.length = fp.length) : interpList v v fp = fp := by
  apply List.ext_get (by simpa [interpList] using hlen)
  intro k h1 h2
  have hk : k < v.length := by simpa [interpList] using h1
  have : (interpList v v fp).get ⟨k, h1⟩ = interpPt (v.get ⟨k, hk⟩) v fp := by
    simp [interpList]
  rw [this]
  exact interpPt_knot v fp hv hlen k hk h2

/-! ## Algebraic helpers for the kernel -/

theorem zipWith_add_mul_replicate_zero (c : ℚ) (l : List ℚ) :
    List.zipWith (fun a r => a + r * c) (List.replicate l.length 0) l
      = l.map (fun r => r * c) := by
  induction l with
  | nil => simp
  | cons x t ih => simp [List.replicate_succ, ih]

theorem zipWith_add_replicate_zero (l : List ℚ) :
    List.zipWith (fun a r => a + r) (List.replicate l.length 0) l = l := by
  induction l with
  | nil => simp
  | cons x t ih => simp [List.replicate_succ, ih]

/-- A sorted list is fixed by `npSort`. -/
theorem npSort_eq_self (l : List ℚ) (hl : l.Pairwise (· ≤ ·)) :
    npSort l = l :=
  List.Sorted.insertionSort_eq hl

theorem chain_le_of_chain_lt (l : List ℚ) (hl : l.Chain' (· < ·)) :
    l.Pairwise (· ≤ ·) :=
  (List.chain'_iff_pairwise.mp hl).imp le_of_lt

/-- C2: for every single-slice input whose row of values is monotone
non-decreasing, every strictly increasing percentile vector of the same
length, and weight vector `[1]`, `blend_percentiles` returns the row
unchanged. -/
theorem C2_single_slice_identity (row percentiles : List ℚ)
    (hrow : row.Chain' (· ≤ ·)) (hps : percentiles.Chain' (· < ·))
    (hlen : row.length = percentiles.length) :
    PercentileBlendingAggregator.blend_percentiles [row] percentiles [1]
      = row := by
  unfold PercentileBlendingAggregator.blend_percentiles
    PercentileBlendingAggregator.combinedPercValues
    PercentileBlendingAggregator.combinedPercThresData
  have hrow' : PercentileBlendingAggregator.combinedPdfRow [row] percentiles [1] 0
      = percentiles := by
    unfold PercentileBlendingAggregator.combinedPdfRow
      PercentileBlendingAggregator.recalcValuesInPdf
    simp [List.range_succ, zipWith_add_mul_replicate_zero,
      zipWith_add_replicate_zero]
  have hthres : npSort (List.flatten [row]) = row := by
    simpa using npSort_eq_self row (List.chain'_iff_pairwise.mp hrow)
  have hvals :
      npSort (((List.range 1).map
        (PercentileBlendingAggregator.combinedPdfRow [row] percentiles [1])).flatten)
        = percentiles := by
    have hr1 : List.range 1 = [0] := by simp [List.range_succ]
    simp only [hr1, List.map_cons, List.map_nil, hrow']
    simpa using npSort_eq_self percentiles (chain_le_of_chain_lt percentiles hps)
  simp only [List.length_cons, List.length_nil, hthres, hvals]
  exact interpList_self percentiles row hps hlen.symm

/-- Witness for C2 at a concrete input. -/
theorem C2_single_slice_identity_witness :
    PercentileBlendingAggregator.blend_percentiles [[10, 20, 30]] [25, 50, 75] [1]
      = [10, 20, 30] :=
  C2_single_slice_identity [10, 20, 30] [25, 50, 75] (by norm_num)
    (by norm_num) rfl

/-! ## Blocks of repeated values

Helper lemmas describing `np.sort` and `np.interp` on the data produced by
blending `n` identical slices: flattened inputs sort into blocks of `n`
equal values.
-/

theorem getD_replicate_of_lt (n i : ℕ) (hi : i < n) (v d : List ℚ) :
    (List.replicate n v).getD i d = v := by
  simp [List.getD_eq_getElem?_getD, List.getElem?_replicate, hi]

theorem zipWith_self_eq_map (f : ℚ → ℚ → ℚ) (l : List ℚ) :
    List.zipWith f l l = l.map (fun x => f x x) := by
  induction l with
  | nil => simp
  | cons x t ih => simp [ih]

theorem map_mul_zero_eq_replicate (l : List ℚ) :
    l.map (fun p => p * 0) = List.replicate l.length 0 := by
  induction l with
  | nil => simp
  | cons x t ih => simp [List.replicate_succ, ih]

/-- The accumulation loop of `blend_percentiles`, when every iteration
adds the same row `ps` scaled by its weight, produces `ps` scaled by the
total weight. -/
theorem foldl_zipWith_const (ps : List ℚ) (w : ℕ → ℚ) (f : ℕ → List ℚ) :
    ∀ (m : ℕ), (∀ j, j < m → f j = ps) →
      (List.range m).foldl
        (fun acc j => List.zipWith (fun a r => a + r * w j) acc (f j))
        (List.replicate ps.length 0)
      = ps.map (fun p => p * ((List.range m).map w).sum) := by
  intro m
  induction m with
  | zero => intro _; simp [map_mul_zero_eq_replicate]
  | succ m ih =>
    intro hf
    rw [List.range_succ, List.foldl_append,
      ih (fun j hj => hf j (Nat.lt_succ_of_lt hj))]
    simp only [List.foldl_cons, List.foldl_nil, hf m (Nat.lt_succ_self m)]
    rw [List.zipWith_map_left, zipWith_self_eq_map]
    apply List.map_congr_left
    intro a _
    simp only [List.map_append, List.sum_append, List.map_cons, List.map_nil,
      List.sum_cons, List.sum_nil]
    ring

theorem sum_getD_range (l : List ℚ) :
    ((List.range l.length).map (fun j => l.getD j 0)).sum = l.sum := by
  induction l with
  | nil => simp
  | cons x t ih =>
    rw [List.length_cons, List.range_succ_eq_map]
    simp only [List.map_cons, List.map_map, List.sum_cons, List.getD_cons_zero,
      Function.comp_def, Nat.succ_eq_add_one, List.getD_cons_succ]
    rw [ih]

/-- Flattening `n` copies of `l` is a permutation of the blocks
`l.flatMap (List.replicate n)`. -/
theorem flatten_replicate_perm (n : ℕ) (l : List ℚ) :
    (List.flatten (List.replicate n l)).Perm
      (l.flatMap (fun x => List.replicate n x)) := by
  induction l with
  | nil =>
    have h : ∀ m : ℕ, List.flatten (List.replicate m ([] : List ℚ)) = [] := by
      intro m
      induction m with
      | zero => simp
      | succ m ihm => simp [List.replicate_succ, ihm]
    simp [h n]
  | cons a t ih =>
    have hsplit : ∀ m : ℕ, (List.flatten (List.replicate m (a :: t))).Perm
        (List.replicate m a ++ List.flatten (List.replicate m t)) := by
      intro m
      induction m with
      | zero => simp
      | succ m ihm =>
        simp only [List.replicate_succ, List.flatten_cons]
        refine (ihm.append_left (a :: t)).trans ?_
        have h2 : (t ++ (List.replicate m a ++ (List.replicate m t).flatten)).Perm
            (List.replicate m a ++ (t ++ (List.replicate m t).flatten)) := by
          rw [← List.append_assoc, ← List.append_assoc]
          exact List.perm_append_comm.append_right _
        exact h2.cons a
    refine (hsplit n).trans ?_
    rw [List.flatMap_cons]
    exact ih.append_left _

/-- The block list `l.flatMap (List.replicate n)` of a sorted list is
sorted. -/
theorem pairwise_flatMap_replicate (n : ℕ) (l : List ℚ)
    (hl : l.Pairwise (· ≤ ·)) :
    (l.flatMap (fun x => List.replicate n x)).Pairwise (· ≤ ·) := by
  induction l with
  | nil => simp
  | cons a t ih =>
    rw [List.flatMap_cons, List.pairwise_append]
    refine ⟨?_, ih (List.pairwise_cons.mp hl).2, ?_⟩
    · rw [List.pairwise_replicate]
      exact Or.inr (le_refl a)
    · intro x hx y hy
      obtain ⟨-, rfl⟩ := List.mem_replicate.mp hx
      obtain ⟨c, hc, hyc⟩ := List.mem_flatMap.mp hy
      obtain ⟨-, hyeq⟩ := List.mem_replicate.mp hyc
      rw [hyeq]
      exact (List.pairwise_cons.mp hl).1 c hc

/-- Sorting the flattening of `n` identical sorted rows yields blocks of
`n` equal values. -/
theorem npSort_flatten_replicate (n : ℕ) (l : List ℚ)
    (hl : l.Pairwise (· ≤ ·)) :
    npSort (List.flatten (List.replicate n l))
      = l.flatMap (fun x => List.replicate n x) := by
  unfold npSort
  exact List.eq_of_perm_of_sorted
    ((List.perm_insertionSort _ _).trans (flatten_replicate_perm n l))
    (List.sorted_insertionSort _ _) (pairwise_flatMap_replicate n l hl)

/-- `np.interp` at a query equal to the common value of a leading block
returns the block's value, provided the next sample (if any) lies strictly
to the right. -/
theorem interpPt_hit_block :
    ∀ (m : ℕ), 1 ≤ m → ∀ (x0 y0 : ℚ) (tx ty : List ℚ),
      (tx = [] ∧ ty = []) ∨
        (∃ h tx2 fh ty2, tx = h :: tx2 ∧ ty = fh :: ty2 ∧ x0 < h) →
      interpPt x0 (List.replicate m x0 ++ tx) (List.replicate m y0 ++ ty) = y0
  | 0, hm, _, _, _, _, _ => absurd hm (by simp)
  | 1, _, x0, y0, tx, ty, hcase => by
    rcases hcase with ⟨rfl, rfl⟩ | ⟨h, tx2, fh, ty2, rfl, rfl, hlt⟩
    · simp [interpPt]
    · simp [interpPt, hlt, not_lt.mpr (le_refl x0)]
  | m + 2, _, x0, y0, tx, ty, hcase => by
    show interpPt x0 (x0 :: x0 :: (List.replicate m x0 ++ tx))
        (y0 :: y0 :: (List.replicate m y0 ++ ty)) = y0
    rw [interpPt_step _ _ _ _ _ _ _
      (not_lt.mpr (le_refl x0)) (not_lt.mpr (le_refl x0))]
    exact interpPt_hit_block (m + 1) (by omega) x0 y0 tx ty hcase

/-- `np.interp` at a query at or right of the next distinct sample skips a
leading block of samples. -/
theorem interpPt_skip_block :
    ∀ (m : ℕ) (x x0 y0 h fh : ℚ) (tx ty : List ℚ), x0 ≤ x → h ≤ x →
      interpPt x (List.replicate m x0 ++ h :: tx)
          (List.replicate m y0 ++ fh :: ty)
        = interpPt x (h :: tx) (fh :: ty)
  | 0, _, _, _, _, _, _, _, _, _ => rfl
  | 1, x, x0, y0, h, fh, tx, ty, hx0, hh => by
    show interpPt x (x0 :: h :: tx) (y0 :: fh :: ty)
        = interpPt x (h :: tx) (fh :: ty)
    rw [interpPt_step _ _ _ _ _ _ _ (not_lt.mpr hx0) (not_lt.mpr hh)]
  | m + 2, x, x0, y0, h, fh, tx, ty, hx0, hh => by
    show interpPt x (x0 :: x0 :: (List.replicate m x0 ++ h :: tx))
        (y0 :: y0 :: (List.replicate m y0 ++ fh :: ty))
        = interpPt x (h :: tx) (fh :: ty)
    rw [interpPt_step _ _ _ _ _ _ _ (not_lt.mpr hx0) (not_lt.mpr hx0)]
    exact interpPt_skip_block (m + 1) x x0 y0 h fh tx ty hx0 hh

/-- Knot lemma for block curves: interpolating the `k`-th element of a
strictly ascending `a` against the block curve
`(a.flatMap (replicate n), b.flatMap (replicate n))` returns `b`'s `k`-th
element. -/
theorem interpPt_block_knot (n : ℕ) (hn : 1 ≤ n) :
    ∀ (a b : List ℚ), a.Chain' (· < ·) → a.length = b.length →
      ∀ k (hk : k < a.length) (hk2 : k < b.length),
        interpPt (a.get ⟨k, hk⟩) (a.flatMap (fun x => List.replicate n x))
          (b.flatMap (fun x => List.replicate n x)) = b.get ⟨k, hk2⟩
  | [], _, _, _, k, hk, _ => absurd hk (by simp)
  | [x0], [y0], _, _, 0, _, _ => by
    show interpPt x0 (List.replicate n x0 ++ []) (List.replicate n y0 ++ []) = y0
    exact interpPt_hit_block n hn x0 y0 [] [] (Or.inl ⟨rfl, rfl⟩)
  | [x0], y0 :: y1 :: ys, _, hlen, _, _, _ => by simp at hlen
  | x0 :: x1 :: xs, [], _, hlen, _, _, _ => by simp at hlen
  | x0 :: x1 :: xs, [y0], _, hlen, _, _, _ => by simp at hlen
  | x0 :: x1 :: xs, y0 :: y1 :: ys, hchain, hlen, 0, hk, hk2 => by
    obtain ⟨n1, rfl⟩ : ∃ n1, n = n1 + 1 := ⟨n - 1, by omega⟩
    have h01 : x0 < x1 := (List.chain'_cons.mp hchain).1
    show interpPt x0
        (List.replicate (n1 + 1) x0 ++
          (x1 :: (List.replicate n1 x1 ++ (xs.flatMap fun x => List.replicate (n1 + 1) x))))
        (List.replicate (n1 + 1) y0 ++
          (y1 :: (List.replicate n1 y1 ++ (ys.flatMap fun x => List.replicate (n1 + 1) x))))
        = y0
    exact interpPt_hit_block (n1 + 1) (by omega) x0 y0 _ _
      (Or.inr ⟨x1, _, y1, _, rfl, rfl, h01⟩)
  | x0 :: x1 :: xs, y0 :: y1 :: ys, hchain, hlen, k + 1, hk, hk2 => by
    obtain ⟨n1, rfl⟩ : ∃ n1, n = n1 + 1 := ⟨n - 1, by omega⟩
    have htail : (x1 :: xs).Chain' (· < ·) := (List.chain'_cons.mp hchain).2
    have h01 : x0 < x1 := (List.chain'_cons.mp hchain).1
    have hk' : k < (x1 :: xs).length := by simpa using hk
    have hx1le : x1 ≤ (x1 :: xs).get ⟨k, hk'⟩ := head_le_get_of_chain x1 xs htail k hk'
    have hx0le : x0 ≤ (x1 :: xs).get ⟨k, hk'⟩ := le_trans (le_of_lt h01) hx1le
    have hrec := interpPt_block_knot (n1 + 1) (by omega) (x1 :: xs) (y1 :: ys) htail
      (by simpa using hlen) k hk' (by simpa using hk2)
    show interpPt ((x1 :: xs).get ⟨k, hk'⟩)
        (List.replicate (n1 + 1) x0 ++
          (x1 :: (List.replicate n1 x1 ++ (xs.flatMap fun x => List.replicate (n1 + 1) x))))
        (List.replicate (n1 + 1) y0 ++
          (y1 :: (List.replicate n1 y1 ++ (ys.flatMap fun x => List.replicate (n1 + 1) x))))
        = (y1 :: ys).get ⟨k, by simpa using hk2⟩
    rw [interpPt_skip_block (n1 + 1) _ x0 y0 x1 y1 _ _ hx0le hx1le]
    exact hrec

/-- Core lemma for C3: blending `n` identical strictly increasing slices
with weights summing to `1` returns the common slice. -/
theorem blend_identical_slices (n : ℕ) (hn : 1 ≤ n) (v ps ws : List ℚ)
    (hv : v.Chain' (· < ·)) (hps : ps.Chain' (· < ·))
    (hlen : v.length = ps.length) (hws : ws.length = n) (hsum : ws.sum = 1) :
    PercentileBlendingAggregator.blend_percentiles (List.replicate n v) ps ws
      = v := by
  have hrecalc : ∀ i j, i < n → j < n →
      PercentileBlendingAggregator.recalcValuesInPdf (List.replicate n v) ps i j
        = ps := by
    intro i j hi hj
    unfold PercentileBlendingAggregator.recalcValuesInPdf
    by_cases hij : i = j
    · simp [hij]
    · rw [if_neg hij, getD_replicate_of_lt n i hi, getD_replicate_of_lt n j hj]
      exact interpList_self v ps hv hlen
  have hrow : ∀ i, i < n →
      PercentileBlendingAggregator.combinedPdfRow (List.replicate n v) ps ws i
        = ps := by
    intro i hi
    unfold PercentileBlendingAggregator.combinedPdfRow
    rw [List.length_replicate,
      foldl_zipWith_const ps (fun j => ws.getD j 0)
        (fun j => PercentileBlendingAggregator.recalcValuesInPdf
          (List.replicate n v) ps i j) n (fun j hj => hrecalc i j hi hj),
      ← hws, sum_getD_range, hsum]
    simp
  have hvals : (List.range (List.replicate n v).length).map
      (PercentileBlendingAggregator.combinedPdfRow (List.replicate n v) ps ws)
      = List.replicate n ps := by
    rw [List.length_replicate]
    have hcongr : ∀ i ∈ List.range n,
        PercentileBlendingAggregator.combinedPdfRow (List.replicate n v) ps ws i
          = (fun _ : ℕ => ps) i :=
      fun i hi => hrow i (List.mem_range.mp hi)
    rw [List.map_congr_left hcongr]
    simp
  have h1 : PercentileBlendingAggregator.combinedPercThresData
      (List.replicate n v) = v.flatMap (fun x => List.replicate n x) := by
    unfold PercentileBlendingAggregator.combinedPercThresData
    exact npSort_flatten_replicate n v (chain_le_of_chain_lt v hv)
  have h2 : PercentileBlendingAggregator.combinedPercValues
      (List.replicate n v) ps ws = ps.flatMap (fun x => List.replicate n x) := by
    unfold PercentileBlendingAggregator.combinedPercValues
    rw [hvals]
    exact npSort_flatten_replicate n ps (chain_le_of_chain_lt ps hps)
  unfold PercentileBlendingAggregator.blend_percentiles
  rw [h1, h2]
  apply List.ext_get (by simpa [interpList] using hlen.symm)
  intro k h1k h2k
  have hk : k < ps.length := by simpa [interpList] using h1k
  have hmap : (interpList ps (ps.flatMap fun x => List.replicate n x)
        (v.flatMap fun x => List.replicate n x)).get ⟨k, h1k⟩
      = interpPt (ps.get ⟨k, hk⟩) (ps.flatMap fun x => List.replicate n x)
        (v.flatMap fun x => List.replicate n x) := by
    simp [interpList]
  rw [hmap]
  exact interpPt_block_knot n hn ps v hps hlen.symm k hk h2k

/-- C3 counterexample: two identical monotone non-decreasing slices with
tied values `[10, 20, 20]` and weights `[9/10, 1/10]` (summing to `1`) do
not blend to themselves — the middle value comes out as `210/11`. -/
theorem C3_identical_ties_counterexample :
    PercentileBlendingAggregator.blend_percentiles
      [[10, 20, 20], [10, 20, 20]] [0, 50, 100] [9/10, 1/10]
      ≠ [10, 20, 20] := by
  have h : PercentileBlendingAggregator.blend_percentiles
      [[10, 20, 20], [10, 20, 20]] [0, 50, 100] [9/10, 1/10]
      = [10, 210/11, 20] := by
    norm_num [PercentileBlendingAggregator.blend_percentiles,
      PercentileBlendingAggregator.combinedPercValues,
      PercentileBlendingAggregator.combinedPercThresData,
      PercentileBlendingAggregator.combinedPdfRow,
      PercentileBlendingAggregator.recalcValuesInPdf,
      interpList, interpPt, npSort, List.insertionSort, List.orderedInsert,
      List.range_succ]
  rw [h]
  norm_num

/-- C3 (amended): blending the two identical slices `[10, 20, 30]` at
percentiles `[25, 50, 75]` with weights `[1/2, 1/2]` returns
`[10, 20, 30]`; and in general, blending any number of identical strictly
increasing slices, at strictly increasing percentile levels of matching
length, with weights summing to `1`, returns the common slice unchanged.
(The original claim's "monotone non-decreasing" is tightened to "strictly
increasing": with tied values the result can differ, see the
counterexample.) -/
theorem C3_identical_distributions :
    (PercentileBlendingAggregator.blend_percentiles
      [[10, 20, 30], [10, 20, 30]] [25, 50, 75] [1/2, 1/2] = [10, 20, 30]) ∧
    ∀ (n : ℕ) (v ps ws : List ℚ), 1 ≤ n → v.Chain' (· < ·) →
      ps.Chain' (· < ·) → v.length = ps.length → ws.length = n →
      ws.sum = 1 →
      PercentileBlendingAggregator.blend_percentiles (List.replicate n v) ps ws
        = v := by
  constructor
  · exact blend_identical_slices 2 (by norm_num) [10, 20, 30] [25, 50, 75]
      [1/2, 1/2] (by norm_num) (by norm_num) rfl rfl (by norm_num)
  · intro n v ps ws hn hv hps hlen hws hsum
    exact blend_identical_slices n hn v ps ws hv hps hlen hws hsum

/-- Witness for C3 at a concrete input. -/
theorem C3_identical_distributions_witness :
    PercentileBlendingAggregator.blend_percentiles
      (List.replicate 2 [10, 20, 30]) [25, 50, 75] [1/2, 1/2]
      = [10, 20, 30] :=
  C3_identical_distributions.2 2 [10, 20, 30] [25, 50, 75] [1/2, 1/2]
    (by norm_num) (by norm_num) (by norm_num) rfl rfl (by norm_num)

/-! ## Structural facts about the sorted curves -/

theorem length_npSort (l : List ℚ) : (npSort l).length = l.length :=
  (List.perm_insertionSort (· ≤ ·) l).length_eq

theorem mem_npSort (l : List ℚ) (x : ℚ) : x ∈ npSort l ↔ x ∈ l :=
  (List.perm_insertionSort (· ≤ ·) l).mem_iff

theorem chain_npSort (l : List ℚ) : (npSort l).Chain' (· ≤ ·) :=
  List.chain'_iff_pairwise.mpr (List.sorted_insertionSort (· ≤ ·) l)

theorem recalcValuesInPdf_length (pv : List (List ℚ)) (ps : List ℚ) (i j : ℕ)
    (hi : (pv.getD i []).length = ps.length) :
    (PercentileBlendingAggregator.recalcValuesInPdf pv ps i j).length
      = ps.length := by
  unfold PercentileBlendingAggregator.recalcValuesInPdf
  rw [List.getD_eq_getElem?_getD] at hi
  by_cases hij : i = j
  · simp [hij]
  · simp [hij, interpList, List.getD_eq_getElem?_getD, hi]

theorem combinedPdfRow_length (pv : List (List ℚ)) (ps ws : List ℚ) (i : ℕ)
    (hi : (pv.getD i []).length = ps.length) :
    (PercentileBlendingAggregator.combinedPdfRow pv ps ws i).length
      = ps.length := by
  unfold PercentileBlendingAggregator.combinedPdfRow
  suffices h : ∀ (l : List ℕ) (acc : List ℚ), acc.length = ps.length →
      (l.foldl (fun acc j => List.zipWith (fun a r => a + r * ws.getD j 0) acc
        (PercentileBlendingAggregator.recalcValuesInPdf pv ps i j)) acc).length
        = ps.length by
    exact h _ _ (by simp)
  intro l
  induction l with
  | nil => intro acc hacc; simpa using hacc
  | cons j t ih =>
    intro acc hacc
    apply ih
    rw [List.length_zipWith, hacc, recalcValuesInPdf_length pv ps i j hi]
    simp

theorem flatten_length_const (pv : List (List ℚ)) (L : ℕ)
    (h : ∀ r ∈ pv, r.length = L) : pv.flatten.length = pv.length * L := by
  induction pv with
  | nil => simp
  | cons r t ih =>
    simp only [List.flatten_cons, List.length_append, List.length_cons]
    rw [h r (by simp), ih (fun r hr => h r (by simp [hr]))]
    ring

theorem combinedPercThresData_length (pv : List (List ℚ)) (ps : List ℚ)
    (hrows : ∀ r ∈ pv, r.length = ps.length) :
    (PercentileBlendingAggregator.combinedPercThresData pv).length
      = pv.length * ps.length := by
  unfold PercentileBlendingAggregator.combinedPercThresData
  rw [length_npSort, flatten_length_const pv ps.length hrows]

theorem combinedPercValues_length (pv : List (List ℚ)) (ps ws : List ℚ)
    (hrows : ∀ r ∈ pv, r.length = ps.length) :
    (PercentileBlendingAggregator.combinedPercValues pv ps ws).length
      = pv.length * ps.length := by
  unfold PercentileBlendingAggregator.combinedPercValues
  have hrlen : ∀ r ∈ (List.range pv.length).map
      (PercentileBlendingAggregator.combinedPdfRow pv ps ws),
      r.length = ps.length := by
    intro r hr
    obtain ⟨i, hi, rfl⟩ := List.mem_map.mp hr
    have hilt : i < pv.length := List.mem_range.mp hi
    have hg : (pv.getD i []).length = ps.length := by
      rw [List.getD_eq_getElem pv [] hilt]
      exact hrows _ (List.getElem_mem hilt)
    exact combinedPdfRow_length pv ps ws i hg
  rw [length_npSort, flatten_length_const _ ps.length hrlen, List.length_map,
    List.length_range]

/-! ## Range clamping of `np.interp` (C9) -/

/-- The output of `np.interp` stays within any interval that contains
every curve value: every branch returns either a curve value or a convex
combination of two consecutive curve values. -/
theorem interpPt_mem_range (lo hi : ℚ) :
    ∀ (xp fp : List ℚ), xp.length = fp.length → fp ≠ [] →
      (∀ y ∈ fp, lo ≤ y ∧ y ≤ hi) → ∀ x : ℚ,
      lo ≤ interpPt x xp fp ∧ interpPt x xp fp ≤ hi
  | [], [], _, hne, _, _ => absurd rfl hne
  | [], y :: ys, hlen, _, _, _ => by simp at hlen
  | [x0], [], hlen, _, _, _ => by simp at hlen
  | x0 :: x1 :: xs, [], hlen, _, _, _ => by simp at hlen
  | [x0], [y0], _, _, hmem, x => by
    simpa [interpPt] using hmem y0 (by simp)
  | [x0], y0 :: y1 :: ys, hlen, _, _, _ => by simp at hlen
  | x0 :: x1 :: xs, [y0], hlen, _, _, _ => by simp at hlen
  | x0 :: x1 :: xs, y0 :: y1 :: ys, hlen, _, hmem, x => by
    by_cases h0 : x < x0
    · simpa [interpPt, h0] using hmem y0 (by simp)
    · by_cases h1 : x < x1
      · have hy0 := hmem y0 (by simp)
        have hy1 := hmem y1 (by simp)
        have hlt : x0 < x1 := lt_of_le_of_lt (not_lt.mp h0) h1
        have hd : (0 : ℚ) < x1 - x0 := by linarith
        have ht0 : 0 ≤ (x - x0) / (x1 - x0) :=
          div_nonneg (by linarith [not_lt.mp h0]) (le_of_lt hd)
        have ht1 : (x - x0) / (x1 - x0) ≤ 1 := by
          rw [div_le_one hd]; linarith
        have hval : interpPt x (x0 :: x1 :: xs) (y0 :: y1 :: ys)
            = y0 + (y1 - y0) * ((x - x0) / (x1 - x0)) := by
          simp [interpPt, h0, h1, mul_div_assoc]
        rw [hval]
        constructor
        · have key : y0 + (y1 - y0) * ((x - x0) / (x1 - x0)) - lo
              = (1 - (x - x0) / (x1 - x0)) * (y0 - lo)
                + ((x - x0) / (x1 - x0)) * (y1 - lo) := by ring
          have p1 : 0 ≤ (1 - (x - x0) / (x1 - x0)) * (y0 - lo) :=
            mul_nonneg (by linarith) (by linarith [hy0.1])
          have p2 : 0 ≤ ((x - x0) / (x1 - x0)) * (y1 - lo) :=
            mul_nonneg ht0 (by linarith [hy1.1])
          linarith
        · have key : hi - (y0 + (y1 - y0) * ((x - x0) / (x1 - x0)))
              = (1 - (x - x0) / (x1 - x0)) * (hi - y0)
                + ((x - x0) / (x1 - x0)) * (hi - y1) := by ring
          have p1 : 0 ≤ (1 - (x - x0) / (x1 - x0)) * (hi - y0) :=
            mul_nonneg (by linarith) (by linarith [hy0.2])
          have p2 : 0 ≤ ((x - x0) / (x1 - x0)) * (hi - y1) :=
            mul_nonneg ht0 (by linarith [hy1.2])
          linarith
      · rw [interpPt_step _ _ _ _ _ _ _ h0 h1]
        exact interpPt_mem_range lo hi (x1 :: xs) (y1 :: ys)
          (by simpa using hlen) (by simp)
          (fun y hy => hmem y (List.mem_cons_of_mem y0 hy)) x

/-- C9: every component of the vector returned by `blend_percentiles`
lies between the minimum and the maximum entry of `perc_values`. The
rows are required to match the percentile vector's length (`np.interp`
and elementwise accumulation reject other shapes). -/
theorem C9_output_within_range (perc_values : List (List ℚ))
    (percentiles weights : List ℚ) (lo hi : ℚ)
    (hrows : ∀ r ∈ perc_values, r.length = percentiles.length)
    (hlo : perc_values.flatten.min? = some lo)
    (hhi : perc_values.flatten.max? = some hi) :
    ∀ y ∈ PercentileBlendingAggregator.blend_percentiles perc_values
      percentiles weights, lo ≤ y ∧ y ≤ hi := by
  have hlo' : ∀ b ∈ perc_values.flatten, lo ≤ b :=
    ((@List.min?_eq_some_iff ℚ lo _ _ ⟨fun h1 h2 => le_antisymm h1 h2⟩
      (fun a => le_refl a) (fun a b => min_choice a b)
      (fun a b c => le_min_iff) perc_values.flatten).mp hlo).2
  have hhi' : ∀ b ∈ perc_values.flatten, b ≤ hi :=
    ((@List.max?_eq_some_iff ℚ hi _ _ ⟨fun h1 h2 => le_antisymm h1 h2⟩
      (fun a => le_refl a) (fun a b => max_choice a b)
      (fun a b c => max_le_iff) perc_values.flatten).mp hhi).2
  have hne : perc_values.flatten ≠ [] := by
    intro hcontra
    rw [hcontra] at hlo
    simp [List.min?] at hlo
  have hthne : PercentileBlendingAggregator.combinedPercThresData perc_values
      ≠ [] := by
    unfold PercentileBlendingAggregator.combinedPercThresData
    intro hc
    have hzero := congrArg List.length hc
    rw [length_npSort] at hzero
    exact hne (List.length_eq_zero.mp (by simpa using hzero))
  have hmemth : ∀ y ∈ PercentileBlendingAggregator.combinedPercThresData
      perc_values, lo ≤ y ∧ y ≤ hi := by
    intro y hy
    have hmem : y ∈ perc_values.flatten := by
      unfold PercentileBlendingAggregator.combinedPercThresData at hy
      exact (mem_npSort _ y).mp hy
    exact ⟨hlo' y hmem, hhi' y hmem⟩
  have hleneq : (PercentileBlendingAggregator.combinedPercValues perc_values
        percentiles weights).length
      = (PercentileBlendingAggregator.combinedPercThresData perc_values).length := by
    rw [combinedPercValues_length _ _ _ hrows,
      combinedPercThresData_length _ _ hrows]
  intro y hy
  simp only [PercentileBlendingAggregator.blend_percentiles, interpList] at hy
  obtain ⟨p, hp, rfl⟩ := List.mem_map.mp hy
  exact interpPt_mem_range lo hi _ _ hleneq hthne hmemth p

/-- Witness for C9 at a concrete input: the first component of the blend
of `[[1, 3], [2, 4]]` (the value interpolated at percentile 25) lies
within the input range `[1, 4]`. -/
theorem C9_output_within_range_witness :
    1 ≤ interpPt 25
        (PercentileBlendingAggregator.combinedPercValues [[1, 3], [2, 4]]
          [25, 75] [1/2, 1/2])
        (PercentileBlendingAggregator.combinedPercThresData [[1, 3], [2, 4]])
    ∧ interpPt 25
        (PercentileBlendingAggregator.combinedPercValues [[1, 3], [2, 4]]
          [25, 75] [1/2, 1/2])
        (PercentileBlendingAggregator.combinedPercThresData [[1, 3], [2, 4]])
      ≤ 4 := by
  refine C9_output_within_range [[1, 3], [2, 4]] [25, 75] [1/2, 1/2] 1 4
    ?_ ?_ ?_ _ ?_
  · intro r hr
    simp only [List.mem_cons, List.not_mem_nil, or_false] at hr
    rcases hr with rfl | rfl <;> rfl
  · norm_num [List.min?, List.foldl, min_def]
  · norm_num [List.max?, List.foldl, max_def]
  · exact List.mem_map_of_mem _ (by simp)

/-! ## Monotonicity of `np.interp` (C10) -/

/-- On a curve with non-decreasing values, every `np.interp` output is at
least the first curve value. -/
theorem head_le_interpPt :
    ∀ (x0 : ℚ) (xs : List ℚ) (y0 : ℚ) (ys : List ℚ) (x : ℚ),
      (x0 :: xs).length = (y0 :: ys).length → (y0 :: ys).Chain' (· ≤ ·) →
      y0 ≤ interpPt x (x0 :: xs) (y0 :: ys)
  | x0, [], y0, [], x, _, _ => by simp [interpPt]
  | x0, [], y0, y1 :: ys, x, hlen, _ => by simp at hlen
  | x0, x1 :: xs, y0, [], x, hlen, _ => by simp at hlen
  | x0, x1 :: xs, y0, y1 :: ys, x, hlen, hchain => by
    have h01 : y0 ≤ y1 := (List.chain'_cons.mp hchain).1
    by_cases h0 : x < x0
    · simp [interpPt, h0]
    · by_cases h1 : x < x1
      · have hlt : x0 < x1 := lt_of_le_of_lt (not_lt.mp h0) h1
        have hd : (0 : ℚ) < x1 - x0 := by linarith
        have ht0 : 0 ≤ (x - x0) / (x1 - x0) :=
          div_nonneg (by linarith [not_lt.mp h0]) (le_of_lt hd)
        have hval : interpPt x (x0 :: x1 :: xs) (y0 :: y1 :: ys)
            = y0 + (y1 - y0) * ((x - x0) / (x1 - x0)) := by
          simp [interpPt, h0, h1, mul_div_assoc]
        rw [hval]
        nlinarith [mul_nonneg (sub_nonneg.mpr h01) ht0]
      · rw [interpPt_step _ _ _ _ _ _ _ h0 h1]
        exact le_trans h01 (head_le_interpPt x1 xs y1 ys x (by simpa using hlen)
          (List.chain'_cons.mp hchain).2)

/-- On a curve with non-decreasing samples and non-decreasing values,
`np.interp` is monotone in the query. -/
theorem interpPt_mono :
    ∀ (xp fp : List ℚ), xp.Chain' (· ≤ ·) → fp.Chain' (· ≤ ·) →
      xp.length = fp.length → ∀ x y : ℚ, x ≤ y →
      interpPt x xp fp ≤ interpPt y xp fp
  | [], [], _, _, _, x, y, _ => by simp [interpPt]
  | [], b :: bs, _, _, hlen, _, _, _ => by simp at hlen
  | a :: as, [], _, _, hlen, _, _, _ => by simp at hlen
  | [x0], [y0], _, _, _, x, y, _ => by simp [interpPt]
  | [x0], y0 :: y1 :: ys, _, _, hlen, _, _, _ => by simp at hlen
  | x0 :: x1 :: xs, [y0], _, _, hlen, _, _, _ => by simp at hlen
  | x0 :: x1 :: xs, y0 :: y1 :: ys, hxp, hfp, hlen, x, y, hxy => by
    have hx01 : x0 ≤ x1 := (List.chain'_cons.mp hxp).1
    have hy01 : y0 ≤ y1 := (List.chain'_cons.mp hfp).1
    by_cases h0 : x < x0
    · have hx : interpPt x (x0 :: x1 :: xs) (y0 :: y1 :: ys) = y0 := by
        simp [interpPt, h0]
      rw [hx]
      exact head_le_interpPt x0 (x1 :: xs) y0 (y1 :: ys) y hlen hfp
    · by_cases h1 : x < x1
      · have hlt : x0 < x1 := lt_of_le_of_lt (not_lt.mp h0) h1
        have hd : (0 : ℚ) < x1 - x0 := by linarith
        have hvalx : interpPt x (x0 :: x1 :: xs) (y0 :: y1 :: ys)
            = y0 + (y1 - y0) * ((x - x0) / (x1 - x0)) := by
          simp [interpPt, h0, h1, mul_div_assoc]
        have h0' : ¬ y < x0 := not_lt.mpr (le_trans (not_lt.mp h0) hxy)
        by_cases h1' : y < x1
        · have hvaly : interpPt y (x0 :: x1 :: xs) (y0 :: y1 :: ys)
              = y0 + (y1 - y0) * ((y - x0) / (x1 - x0)) := by
            simp [interpPt, h0', h1', mul_div_assoc]
          rw [hvalx, hvaly]
          have hmono : (x - x0) / (x1 - x0) ≤ (y - x0) / (x1 - x0) :=
            (div_le_div_iff_of_pos_right hd).mpr (by linarith)
          nlinarith [mul_le_mul_of_nonneg_left hmono (sub_nonneg.mpr hy01)]
        · have ht1 : (x - x0) / (x1 - x0) ≤ 1 := by
            rw [div_le_one hd]; linarith
          have hxle : interpPt x (x0 :: x1 :: xs) (y0 :: y1 :: ys) ≤ y1 := by
            rw [hvalx]
            nlinarith [mul_le_mul_of_nonneg_left ht1 (sub_nonneg.mpr hy01)]
          rw [interpPt_step y x0 x1 y0 y1 xs ys h0' h1']
          exact le_trans hxle (head_le_interpPt x1 xs y1 ys y
            (by simpa using hlen) (List.chain'_cons.mp hfp).2)
      · have h0' : ¬ y < x0 := not_lt.mpr (le_trans (not_lt.mp h0) hxy)
        have h1' : ¬ y < x1 := not_lt.mpr (le_trans (not_lt.mp h1) hxy)
        rw [interpPt_step x x0 x1 y0 y1 xs ys h0 h1,
          interpPt_step y x0 x1 y0 y1 xs ys h0' h1']
        exact interpPt_mono (x1 :: xs) (y1 :: ys) (List.chain'_cons.mp hxp).2
          (List.chain'_cons.mp hfp).2 (by simpa using hlen) x y hxy

/-- C10: for every input matrix (with rows matching the percentile
vector's length) and every weight vector, if the query percentile vector
is non-decreasing then the vector returned by `blend_percentiles` is
non-decreasing: the final interpolation runs over two ascending-sorted
arrays, and `np.interp` over such a curve is monotone in the query. -/
theorem C10_monotone_output (perc_values : List (List ℚ))
    (percentiles weights : List ℚ)
    (hrows : ∀ r ∈ perc_values, r.length = percentiles.length)
    (hps : percentiles.Pairwise (· ≤ ·)) :
    (PercentileBlendingAggregator.blend_percentiles perc_values percentiles
      weights).Pairwise (· ≤ ·) := by
  unfold PercentileBlendingAggregator.blend_percentiles interpList
  apply List.Pairwise.map
  · intro a b hab
    apply interpPt_mono
    · unfold PercentileBlendingAggregator.combinedPercValues
      exact chain_npSort _
    · unfold PercentileBlendingAggregator.combinedPercThresData
      exact chain_npSort _
    · rw [combinedPercValues_length _ _ _ hrows,
        combinedPercThresData_length _ _ hrows]
    · exact hab
  · exact hps

/-- Witness for C10 at a concrete input. -/
theorem C10_monotone_output_witness :
    (PercentileBlendingAggregator.blend_percentiles [[1, 3], [2, 4]]
      [25, 75] [1/2, 1/2]).Pairwise (· ≤ ·) :=
  C10_monotone_output [[1, 3], [2, 4]] [25, 75] [1/2, 1/2]
    (by intro r hr
        simp only [List.mem_cons, List.not_mem_nil, or_false] at hr
        rcases hr with rfl | rfl <;> rfl)
    (by norm_num)

/-! ## N-dimensional arrays (modelled from numpy semantics)

An `NDArray` is a shape (one extent per axis) together with a total
function from multi-indices (`List ℕ`, one entry per axis) to values.
`np.moveaxis` becomes a reindexing along a permutation of the axes and
`reshape` a mixed-radix conversion of the trailing indices; the shape
field carries the axis bookkeeping that claim C1 is about.
-/

structure NDArray where
  shape : List ℕ
  data : List ℕ → ℚ

/-- Reorder axes: `order` lists, for every axis of the result, the source
axis it comes from (numpy's transposition order, as computed inside
`np.moveaxis`). Entry `j` of the source index is read from the result
index at the position where `order` holds `j`. -/
def applyOrder (arr : NDArray) (order : List ℕ) : NDArray where
  shape := order.map fun j => arr.shape.getD j 0
  data := fun idx =>
    arr.data ((List.range arr.shape.length).map fun j =>
      idx.getD (order.indexOf j) 0)

/-- The axis order produced by `np.moveaxis(data, [perc_dim, axis], [1, 0])`
(source line 115): numpy takes the axes not listed as sources, in order,
then inserts the sources at their destinations in ascending destination
order (`axis` at 0, then `perc_dim` at 1). -/
def moveaxisPairOrder (ndim a p : ℕ) : List ℕ :=
  a :: p :: (List.range ndim).filter (fun j => decide (j ≠ a) && decide (j ≠ p))

/-- The axis order produced by `np.moveaxis(result, 0, dst)` (source lines
146 and 151): axes other than 0 in order, with 0 inserted at `dst`. -/
def moveaxisOneOrder (ndim dst : ℕ) : List ℕ :=
  ((List.range ndim).filter (fun j => decide (j ≠ 0))).insertIdx dst 0

/-- C-order linearisation of a multi-index over dimensions `dims`. -/
def flattenIdx : List ℕ → List ℕ → ℕ
  | [], _ => 0
  | _ :: ds, idx => idx.getD 0 0 * ds.prod + flattenIdx ds (idx.drop 1)

/-- C-order multi-index of a flat position over dimensions `dims`. -/
def unflattenIdx : List ℕ → ℕ → List ℕ
  | [], _ => []
  | _ :: ds, k => k / ds.prod :: unflattenIdx ds (k % ds.prod)

/-- `data = data.reshape(input_shape)` (source lines 117–123): keep the
first two axes, flatten the rest into one trailing axis. -/
def reshape3 (arr : NDArray) : NDArray where
  shape := [arr.shape.getD 0 0, arr.shape.getD 1 0, (arr.shape.drop 2).prod]
  data := fun idx =>
    arr.data (idx.getD 0 0 :: idx.getD 1 0 ::
      unflattenIdx (arr.shape.drop 2) (idx.getD 2 0))

/-- `if axis < 0: axis += data.ndim` (source lines 110–112): Python-style
normalisation of a possibly negative axis index. -/
def normAxis (axis : ℤ) (ndim : ℕ) : ℕ :=
  (if axis < 0 then axis + ndim else axis).toNat

namespace PercentileBlendingAggregator

/-- `data = np.moveaxis(data, [perc_dim, axis], [1, 0])` (source line
115): the blend axis becomes axis 0 and the percentile axis becomes
axis 1. -/
def aggregateMoved (data : NDArray) (ax perc_dim : ℕ) : NDArray :=
  applyOrder data (moveaxisPairOrder data.shape.length ax perc_dim)

/-- The kernel loop of `aggregate` (source lines 124–133): `result` has
shape `(levels, spatial)` and column `i` holds
`blend_percentiles(data[:, :, i], arr_percent, arr_weights)`. -/
def aggregateFlatResult (data : NDArray) (ax perc_dim : ℕ)
    (arr_percent arr_weights : List ℚ) : NDArray :=
  { shape := [(reshape3 (aggregateMoved data ax perc_dim)).shape.getD 1 0,
      (reshape3 (aggregateMoved data ax perc_dim)).shape.getD 2 0],
    data := fun idx =>
      (blend_percentiles
        ((List.range ((reshape3 (aggregateMoved data ax perc_dim)).shape.getD 0 0)).map
          fun i =>
            (List.range ((reshape3 (aggregateMoved data ax perc_dim)).shape.getD 1 0)).map
              fun p => (reshape3 (aggregateMoved data ax perc_dim)).data
                [i, p, idx.getD 1 0])
        arr_percent arr_weights).getD (idx.getD 0 0) 0 }

/-- `shape = arr_percent.shape + shape; result = result.reshape(shape)`
(source lines 134–137): percentile leading, then the spatial axes restored
to their multi-axis shape. -/
def aggregateReshaped (data : NDArray) (ax perc_dim : ℕ)
    (arr_percent arr_weights : List ℚ) : NDArray :=
  { shape := arr_percent.length ::
      (aggregateMoved data ax perc_dim).shape.drop 2,
    data := fun idx =>
      (aggregateFlatResult data ax perc_dim arr_percent arr_weights).data
        [idx.getD 0 0,
          flattenIdx ((aggregateMoved data ax perc_dim).shape.drop 2)
            (idx.drop 1)] }

/-- `PercentileBlendingAggregator.aggregate` (source lines 82–152): move
the blend and percentile axes to the front, blend every spatial column,
then move the percentile axis back — to `perc_dim - 1` when the collapsed
axis came before it, to `perc_dim` otherwise (source lines 145–151). -/
def aggregate (data : NDArray) (axis : ℤ) (arr_percent arr_weights : List ℚ)
    (perc_dim : ℕ) : NDArray :=
  if normAxis axis data.shape.length < perc_dim then
    applyOrder
      (aggregateReshaped data (normAxis axis data.shape.length) perc_dim
        arr_percent arr_weights)
      (moveaxisOneOrder (arr_percent.length ::
        (aggregateMoved data (normAxis axis data.shape.length) perc_dim).shape.drop 2).length
        (perc_dim - 1))
  else
    applyOrder
      (aggregateReshaped data (normAxis axis data.shape.length) perc_dim
        arr_percent arr_weights)
      (moveaxisOneOrder (arr_percent.length ::
        (aggregateMoved data (normAxis axis data.shape.length) perc_dim).shape.drop 2).length
        perc_dim)

end PercentileBlendingAggregator

/-! ## Shape bookkeeping lemmas for `aggregate` (C1) -/

theorem map_getD_range (t : List ℕ) :
    (List.range t.length).map (fun j => t.getD j 0) = t := by
  induction t with
  | nil => simp
  | cons x s ih =>
    rw [List.length_cons, List.range_succ_eq_map]
    simp only [List.map_cons, List.map_map, List.getD_cons_zero,
      Function.comp_def, Nat.succ_eq_add_one, List.getD_cons_succ]
    rw [ih]

theorem map_insertIdx (f : ℕ → ℕ) :
    ∀ (l : List ℕ) (n : ℕ) (a : ℕ),
      (l.insertIdx n a).map f = (l.map f).insertIdx n (f a)
  | l, 0, a => by simp
  | [], n + 1, a => by simp
  | x :: t, n + 1, a => by
    rw [List.insertIdx_succ_cons, List.map_cons, List.map_cons,
      List.insertIdx_succ_cons, map_insertIdx f t n a]

/-- `[j for j in range(n) if j != a]`, read through a shape list `s`,
is the shape list with entry `a` removed. -/
theorem filter_ne_getD (s : List ℕ) :
    ∀ (a : ℕ), a < s.length →
      ((List.range s.length).filter (fun j => decide (j ≠ a))).map
        (fun j => s.getD j 0) = s.eraseIdx a := by
  induction s with
  | nil => intro a ha; simp at ha
  | cons x t ih =>
    intro a ha
    rw [List.length_cons, List.range_succ_eq_map]
    match a with
    | 0 =>
      rw [List.filter_cons]
      simp only [ne_eq, List.filter_map, Function.comp_def, decide_not]
      rw [if_neg (show ¬((!decide True) = true) by simp)]
      have hcong : (fun x : ℕ => !decide (x.succ = 0)) = fun _ : ℕ => true := by
        funext j; simp
      rw [hcong, List.filter_true, List.map_map]
      have hcomp : ((fun j => (x :: t).getD j 0) ∘ Nat.succ)
          = fun j => t.getD j 0 := by
        funext j
        simp [Nat.succ_eq_add_one, List.getD_cons_succ]
      rw [hcomp, map_getD_range]
      rfl
    | b + 1 =>
      rw [List.filter_cons]
      simp only [ne_eq, List.filter_map, Function.comp_def, decide_not]
      rw [if_pos (show (!decide ((0 : ℕ) = b + 1)) = true from rfl)]
      have hcong : (fun x : ℕ => !decide (x.succ = b + 1))
          = fun j : ℕ => decide (j ≠ b) := by
        funext j; simp
      rw [hcong, List.map_cons, List.map_map]
      have hcomp : ((fun j => (x :: t).getD j 0) ∘ Nat.succ)
          = fun j => t.getD j 0 := by
        funext j
        simp [Nat.succ_eq_add_one, List.getD_cons_succ]
      rw [hcomp, ih b (by simpa using ha)]
      rfl

theorem insertIdx_getD_eraseIdx :
    ∀ (l : List ℕ) (q : ℕ), q < l.length →
      (l.eraseIdx q).insertIdx q (l.getD q 0) = l
  | [], q, hq => by simp at hq
  | x :: t, 0, _ => by simp
  | x :: t, q + 1, hq => by
    simp only [List.eraseIdx_cons_succ, List.getD_cons_succ,
      List.insertIdx_succ_cons]
    rw [insertIdx_getD_eraseIdx t q (by simpa using hq)]

/-- Key bookkeeping identity of `aggregate`: reading the shape through
`[j for j in range(n) if j != a and j != p]` and re-inserting the
percentile extent at `p - 1` (when `a < p`) or `p` (when `p < a`)
reconstructs the shape with axis `a` removed. -/
theorem filter_pair_insertIdx_eraseIdx (s : List ℕ) :
    ∀ (a p : ℕ), a < s.length → p < s.length → a ≠ p →
      (((List.range s.length).filter
        (fun j => decide (j ≠ a) && decide (j ≠ p))).map
          (fun j => s.getD j 0)).insertIdx
        (if a < p then p - 1 else p) (s.getD p 0)
      = s.eraseIdx a := by
  induction s with
  | nil => intro a p ha; simp at ha
  | cons x t ih =>
    intro a p ha hp hap
    rw [List.length_cons, List.range_succ_eq_map]
    match a, p with
    | 0, 0 => exact absurd rfl hap
    | 0, q + 1 =>
      have hq : q < t.length := by simpa using hp
      rw [List.filter_cons]
      simp only [ne_eq, List.filter_map, Function.comp_def, decide_not]
      rw [if_neg (show ¬((!decide True && !decide (0 = q + 1)) = true) from
        Bool.false_ne_true)]
      have hcong : (fun x : ℕ => !decide (x.succ = 0) && !decide (x.succ = q + 1))
          = fun j : ℕ => decide (j ≠ q) := by
        funext j; simp
      rw [hcong, List.map_map]
      have hcomp : ((fun j => (x :: t).getD j 0) ∘ Nat.succ)
          = fun j => t.getD j 0 := by
        funext j
        simp [Nat.succ_eq_add_one, List.getD_cons_succ]
      rw [hcomp, if_pos (Nat.succ_pos q)]
      simp only [Nat.add_sub_cancel, List.getD_cons_succ]
      rw [filter_ne_getD t q hq, insertIdx_getD_eraseIdx t q hq]
      rfl
    | b + 1, 0 =>
      have hb : b < t.length := by simpa using ha
      rw [List.filter_cons]
      simp only [ne_eq, List.filter_map, Function.comp_def, decide_not]
      rw [if_neg (show ¬((!decide (0 = b + 1) && !decide True) = true) from
        Bool.false_ne_true)]
      have hcong : (fun x : ℕ => !decide (x.succ = b + 1) && !decide (x.succ = 0))
          = fun j : ℕ => decide (j ≠ b) := by
        funext j; simp
      rw [hcong, List.map_map]
      have hcomp : ((fun j => (x :: t).getD j 0) ∘ Nat.succ)
          = fun j => t.getD j 0 := by
        funext j
        simp [Nat.succ_eq_add_one, List.getD_cons_succ]
      rw [hcomp, if_neg (by omega), filter_ne_getD t b hb]
      simp only [List.getD_cons_zero, List.insertIdx_zero]
      rfl
    | b + 1, q + 1 =>
      have hb : b < t.length := by simpa using ha
      have hq : q < t.length := by simpa using hp
      have hbq : b ≠ q := fun h => hap (by rw [h])
      rw [List.filter_cons]
      simp only [ne_eq, List.filter_map, Function.comp_def, decide_not]
      rw [if_pos (show (!decide (0 = b + 1) && !decide (0 = q + 1)) = true
        from rfl)]
      have hcong : (fun x : ℕ => !decide (x.succ = b + 1) && !decide (x.succ = q + 1))
          = fun j : ℕ => decide (j ≠ b) && decide (j ≠ q) := by
        funext j; simp
      rw [hcong, List.map_cons, List.map_map]
      have hcomp : ((fun j => (x :: t).getD j 0) ∘ Nat.succ)
          = fun j => t.getD j 0 := by
        funext j
        simp [Nat.succ_eq_add_one, List.getD_cons_succ]
      rw [hcomp]
      have hdst2 : (if b + 1 < q + 1 then q + 1 - 1 else q + 1)
          = (if b < q then q - 1 else q) + 1 := by
        by_cases hlt : b < q
        · rw [if_pos (by omega), if_pos hlt]; omega
        · rw [if_neg (by omega), if_neg hlt]
      rw [List.getD_cons_succ, List.getD_cons_zero, hdst2,
        List.insertIdx_succ_cons]
      have iht := ih b q hb hq hbq
      rw [iht]
      rfl

/-- The final `np.moveaxis(result, 0, dst)` of `aggregate`, at the shape
level: the percentile extent is inserted at `dst` among the spatial
extents. -/
theorem moveaxisOneOrder_shape (rest : List ℕ) (percLen dst : ℕ) :
    (moveaxisOneOrder (rest.length + 1) dst).map
      (fun j => (percLen :: rest).getD j 0)
      = rest.insertIdx dst percLen := by
  unfold moveaxisOneOrder
  rw [map_insertIdx, List.range_succ_eq_map, List.filter_cons]
  simp only [ne_eq, List.filter_map, Function.comp_def, decide_not,
    List.getD_cons_zero]
  rw [if_neg (show ¬((!decide True) = true) by simp)]
  have hcong : (fun x : ℕ => !decide (x.succ = 0)) = fun _ : ℕ => true := by
    funext j; simp
  rw [hcong, List.filter_true, List.map_map]
  have hcomp : ((fun j => (percLen :: rest).getD j 0) ∘ Nat.succ)
      = fun j => rest.getD j 0 := by
    funext j
    simp [Nat.succ_eq_add_one, List.getD_cons_succ]
  rw [hcomp, map_getD_range]

/-- The shape of `aggregate`, before simplification: the spatial extents
(all axes except the blend and percentile axes, in order), with the
percentile extent inserted at `perc_dim - 1` or `perc_dim` according to
the axis order. -/
theorem aggregate_shape_general (data : NDArray) (axis : ℤ)
    (arr_percent arr_weights : List ℚ) (perc_dim : ℕ) :
    (PercentileBlendingAggregator.aggregate data axis arr_percent arr_weights
      perc_dim).shape
      = (((List.range data.shape.length).filter
          (fun j => decide (j ≠ normAxis axis data.shape.length)
            && decide (j ≠ perc_dim))).map
          (fun j => data.shape.getD j 0)).insertIdx
        (if normAxis axis data.shape.length < perc_dim then perc_dim - 1
          else perc_dim)
        arr_percent.length := by
  have hmoved : (PercentileBlendingAggregator.aggregateMoved data
      (normAxis axis data.shape.length) perc_dim).shape.drop 2
      = ((List.range data.shape.length).filter
          (fun j => decide (j ≠ normAxis axis data.shape.length)
            && decide (j ≠ perc_dim))).map
        (fun j => data.shape.getD j 0) := rfl
  unfold PercentileBlendingAggregator.aggregate
  by_cases hord : normAxis axis data.shape.length < perc_dim
  · rw [if_pos hord, if_pos hord, ← hmoved]
    exact moveaxisOneOrder_shape _ arr_percent.length (perc_dim - 1)
  · rw [if_neg hord, if_neg hord, ← hmoved]
    exact moveaxisOneOrder_shape _ arr_percent.length perc_dim

/-- C1: for every input array, blend axis and percentile axis (distinct
after normalising a negative blend axis by adding the rank, and with
`arr_percent` matching the percentile extent), `aggregate` returns an
array whose shape is the input shape with the blend axis removed, and the
percentile extent sits at index `perc_dim - 1` when the removed blend
axis preceded the percentile axis, and at index `perc_dim` otherwise. -/
theorem C1_aggregate_shape (data : NDArray) (axis : ℤ)
    (arr_percent arr_weights : List ℚ) (perc_dim : ℕ)
    (hlo : -(data.shape.length : ℤ) ≤ axis)
    (hhi : axis < (data.shape.length : ℤ))
    (hperc : perc_dim < data.shape.length)
    (hax : normAxis axis data.shape.length ≠ perc_dim)
    (hlen : arr_percent.length = data.shape.getD perc_dim 0) :
    (PercentileBlendingAggregator.aggregate data axis arr_percent arr_weights
      perc_dim).shape
      = data.shape.eraseIdx (normAxis axis data.shape.length)
    ∧ (PercentileBlendingAggregator.aggregate data axis arr_percent
      arr_weights perc_dim).shape.getD
        (if normAxis axis data.shape.length < perc_dim then perc_dim - 1
          else perc_dim) 0
      = data.shape.getD perc_dim 0 := by
  have haxlt : normAxis axis data.shape.length < data.shape.length := by
    unfold normAxis
    split <;> omega
  have heq := aggregate_shape_general data axis arr_percent arr_weights
    perc_dim
  rw [hlen, filter_pair_insertIdx_eraseIdx data.shape
    (normAxis axis data.shape.length) perc_dim haxlt hperc hax] at heq
  refine ⟨heq, ?_⟩
  rw [heq]
  by_cases hord : normAxis axis data.shape.length < perc_dim
  · rw [if_pos hord]
    have hlt : perc_dim - 1
        < (data.shape.eraseIdx (normAxis axis data.shape.length)).length := by
      rw [List.length_eraseIdx, if_pos haxlt]
      omega
    rw [List.getD_eq_getElem _ _ hlt, List.getElem_eraseIdx, dif_neg (by omega)]
    have hidx : perc_dim - 1 + 1 = perc_dim := by omega
    simp only [hidx]
    rw [List.getD_eq_getElem data.shape 0 hperc]
  · rw [if_neg hord]
    have hpa : perc_dim < normAxis axis data.shape.length := by omega
    have hlt : perc_dim
        < (data.shape.eraseIdx (normAxis axis data.shape.length)).length := by
      rw [List.length_eraseIdx, if_pos haxlt]
      omega
    rw [List.getD_eq_getElem _ _ hlt, List.getElem_eraseIdx, dif_pos hpa]
    rw [List.getD_eq_getElem data.shape 0 hperc]

/-- Witness for C1 at a concrete input: shape `(3, 5, 2, 2)` (time,
percentile, lat, lon), blending axis 0 with `perc_dim = 1`. -/
theorem C1_aggregate_shape_witness :
    (PercentileBlendingAggregator.aggregate
      ⟨[3, 5, 2, 2], fun _ => 0⟩ 0 [0, 25, 50, 75, 100] [1/3, 1/3, 1/3]
      1).shape
      = [5, 2, 2]
    ∧ (PercentileBlendingAggregator.aggregate
      ⟨[3, 5, 2, 2], fun _ => 0⟩ 0 [0, 25, 50, 75, 100] [1/3, 1/3, 1/3]
      1).shape.getD 0 0 = 5 := by
  have h := C1_aggregate_shape ⟨[3, 5, 2, 2], fun _ => 0⟩ 0
    [0, 25, 50, 75, 100] [1/3, 1/3, 1/3] 1
    (by norm_num) (by norm_num) (by norm_num)
    (by norm_num [normAxis]) rfl
  refine ⟨?_, ?_⟩
  · rw [h.1]; rfl
  · rw [h.1]; simp [normAxis]

/-! ## Cubes (modelled from the iris data model)

The two orchestrator classes consume `iris.cube.Cube` objects. Only the
slice of iris behaviour that `weighted_blend.py` calls is modelled:
coordinates with a name, point values, optional bounds and the data
dimensions they span; name lookup; collapsing with a reduction; slicing
over a coordinate; `guess_bounds`. Coordinate names are `List Char`.
-/

abbrev CName := List Char

/-- An iris coordinate: name, ordered point values, optional interval
bounds (one pair per point), and the data dimensions the coordinate spans
(`cube.coord_dims`; empty for a scalar coordinate). -/
structure Coord where
  name : CName
  points : List ℚ
  bounds : Option (List (ℚ × ℚ))
  dims : List ℕ
deriving DecidableEq

/-- An iris cube: its coordinates and its data array. -/
structure Cube where
  coords : List Coord
  arr : NDArray

/-- Does `pat` occur at the head of the second list? -/
def startsWithChars : List Char → List Char → Bool
  | [], _ => true
  | _ :: _, [] => false
  | c :: cs, d :: ds => c == d && startsWithChars cs ds

/-- Python's `name.find(pat) >= 0`: does `pat` occur as a contiguous
substring? -/
def containsChars (pat : List Char) : List Char → Bool
  | [] => startsWithChars pat []
  | c :: cs => startsWithChars pat (c :: cs) || containsChars pat cs

/-- The substring `'percentile'` scanned for on source line 284. -/
def percentileChars : CName :=
  ['p', 'e', 'r', 'c', 'e', 'n', 't', 'i', 'l', 'e']

/-- `cube.coord(name)` (modelled from iris semantics): the coordinate
with the given name; `none` models iris raising
`CoordinateNotFoundError`. -/
def Cube.coord (cube : Cube) (name : CName) : Option Coord :=
  cube.coords.find? (fun c => c.name == name)

/-- The error taxonomy of `WeightedBlendAcrossWholeDimension.process` and
of the iris calls it makes, one constructor per raise site. -/
inductive BlendError where
  | percNotDimCoord
  | percTooFewPoints
  | percTooMany
  | weightShapeMismatch
  | coordNotFound
  | boundsAlreadyExist
  | cannotGuessBounds
deriving DecidableEq

/-- The spec's `PercentileDimensionError` groups the three percentile
validation failures. -/
def BlendError.isPercentileDimensionError : BlendError → Bool
  | .percNotDimCoord => true
  | .percTooFewPoints => true
  | .percTooMany => true
  | _ => false

/-- Source lines 279–302: count the coordinates whose name contains
`'percentile'` (the loop keeps the last match); with exactly one match it
must span a data dimension and have at least two points; more than one
match is an error; zero matches means mean mode (`none`). -/
def percCheck (cube : Cube) : Except BlendError (Option Coord) :=
  match cube.coords.filter (fun c => containsChars percentileChars c.name) with
  | [] => .ok none
  | [pc] =>
    if pc.dims = [] then .error .percNotDimCoord
    else if pc.points.length < 2 then .error .percTooFewPoints
    else .ok (some pc)
  | _ :: _ :: _ => .error .percTooMany

/-- Source lines 304–313: when weights are supplied their shape must
equal the shape of the blend coordinate's points (the lookup itself can
fail when the coordinate is absent). -/
def weightsCheck (cube : Cube) (coordName : CName)
    (weights : Option (List ℚ)) : Except BlendError Unit :=
  match weights with
  | none => .ok ()
  | some ws =>
    match cube.coord coordName with
    | none => .error .coordNotFound
    | some bc =>
      if ws.length ≠ bc.points.length then .error .weightShapeMismatch
      else .ok ()

/-- Modelled from iris semantics (`Coord.collapsed`): a coordinate
collapsed to a single cell spanning its extremes. Bounds, when present,
provide the extremes; the new point is the midpoint. The exact values are
not used by any claim. -/
def collapsedCoord (c : Coord) : Coord :=
  let base : List ℚ :=
    match c.bounds with
    | some bs => bs.flatMap (fun b => [b.1, b.2])
    | none => c.points
  let lo := base.foldl min (base.headD 0)
  let hi := base.foldl max (base.headD 0)
  { c with points := [(lo + hi) / 2], bounds := some [(lo, hi)], dims := [] }

/-- Modelled from iris semantics (`cube.collapsed`): a NEW cube (the
input is copied, not mutated) with data dimension `d` reduced out;
coordinates spanning `d` are collapsed, the other coordinates have their
dimension indices renumbered. -/
def collapseCubeWith (cube : Cube) (d : ℕ) (newArr : NDArray) : Cube :=
  { coords := cube.coords.map (fun c =>
      if d ∈ c.dims then collapsedCoord c
      else { c with dims := c.dims.map (fun k => if d < k then k - 1 else k) }),
    arr := newArr }

/-- Modelled from numpy/iris semantics (`np.average`, used by
`iris.analysis.MEAN` with the broadcast weights of source lines 347–354):
the weighted arithmetic mean along dimension `d`, i.e. the sum of value
times weight divided by the sum of weights; uniform weights when none are
supplied. -/
def weightedMeanArr (arr : NDArray) (d : ℕ) (weights : Option (List ℚ)) :
    NDArray :=
  { shape := arr.shape.eraseIdx d,
    data := fun idx =>
      ((List.range (arr.shape.getD d 0)).map (fun k =>
        arr.data (idx.insertIdx d k) *
          (match weights with | none => 1 | some ws => ws.getD k 0))).sum
      / ((List.range (arr.shape.getD d 0)).map (fun k =>
          (match weights with | none => (1 : ℚ) | some ws => ws.getD k 0))).sum }

/-- Source lines 356–362: when a `coord_adjust` function is configured,
every coordinate of the result whose name maps (in the ORIGINAL cube) to
exactly the collapsed dimensions gets its points recomputed from the
original points. This mutates the coordinate objects of `result` in
place. -/
def applyCoordAdjust (origCube : Cube) (coordDim : List ℕ)
    (f : List ℚ → List ℚ) (result : Cube) : Cube :=
  { result with coords := result.coords.map (fun crd =>
      match origCube.coord crd.name with
      | some oc =>
        if oc.dims = coordDim then { crd with points := f oc.points } else crd
      | none => crd) }

/-- Outcome of `WeightedBlendAcrossWholeDimension.process`: the state of
the caller's cube object after the call (capturing in-place effects and
aliasing), the returned cube, and whether a warning was emitted. -/
structure ProcessOutcome where
  inputAfter : Cube
  result : Cube
  warned : Bool

namespace WeightedBlendAcrossWholeDimension

/-- `WeightedBlendAcrossWholeDimension.process` (source lines 240–364).
`coordName` and `coordAdjust` are the plugin configuration (`self.coord`,
`self.coord_adjust`). The `isinstance` check of lines 273–277 cannot fail
in the typed model. Checks run in source order: percentile scan, weights
shape, then the scalar-coordinate test; the scalar path returns the input
cube itself (aliasing), the collapse paths return a new cube. A
percentile coordinate spanning several dimensions is modelled by its
first dimension (the source's destructuring assignment assumes exactly
one), and the blend coordinate's first dimension is the collapsed one. -/
def process (coordName : CName) (coordAdjust : Option (List ℚ → List ℚ))
    (cube : Cube) (weights : Option (List ℚ)) :
    Except BlendError ProcessOutcome :=
  match percCheck cube with
  | .error e => .error e
  | .ok percOpt =>
    match weightsCheck cube coordName weights with
    | .error e => .error e
    | .ok _ =>
      match cube.coord coordName with
      | none => .error .coordNotFound
      | some bc =>
        if bc.dims = [] then
          -- lines 315–322: warn and return the original cube; with
          -- coord_adjust configured, lines 356–362 then rewrite the
          -- points of every scalar coordinate of the INPUT cube in place
          -- (the empty dims tuple compares equal for all of them)
          match coordAdjust with
          | none => .ok ⟨cube, cube, true⟩
          | some f =>
            let mutated := applyCoordAdjust cube [] f cube
            .ok ⟨mutated, mutated, true⟩
        else
          match percOpt with
          | some pc =>
            -- lines 326–341: percentile path
            let percentiles := pc.points
            let perc_dim := pc.dims.headD 0
            let ws :=
              match weights with
              | some ws => ws
              | none => List.replicate bc.points.length
                  ((1 : ℚ) / (bc.points.length : ℚ))
            let d := bc.dims.headD 0
            let collapsed := collapseCubeWith cube d
              (PercentileBlendingAggregator.aggregate cube.arr (d : ℤ)
                percentiles ws perc_dim)
            match coordAdjust with
            | none => .ok ⟨cube, collapsed, false⟩
            | some f => .ok ⟨cube, applyCoordAdjust cube bc.dims f collapsed, false⟩
          | none =>
            -- lines 343–354: weighted-mean path
            let d := bc.dims.headD 0
            let collapsed := collapseCubeWith cube d
              (weightedMeanArr cube.arr d weights)
            match coordAdjust with
            | none => .ok ⟨cube, collapsed, false⟩
            | some f => .ok ⟨cube, applyCoordAdjust cube bc.dims f collapsed, false⟩

end WeightedBlendAcrossWholeDimension

/-! ## The adjacent-point (triangular) variant -/

/-- Modelled from iris semantics (`Coord.guess_bounds`): contiguous
bounds at the midpoints between neighbouring points, extrapolated at the
ends; iris refuses when bounds already exist or with fewer than two
points. -/
def guessedBounds (pts : List ℚ) : List (ℚ × ℚ) :=
  (List.range pts.length).map (fun i =>
    (if i = 0 then pts.getD 0 0 - (pts.getD 1 0 - pts.getD 0 0) / 2
      else (pts.getD (i - 1) 0 + pts.getD i 0) / 2,
     if i = pts.length - 1 then
        pts.getD i 0 + (pts.getD i 0 - pts.getD (i - 1) 0) / 2
      else (pts.getD i 0 + pts.getD (i + 1) 0) / 2))

def guessBounds (c : Coord) : Except BlendError Coord :=
  if c.bounds.isSome then .error .boundsAlreadyExist
  else if c.points.length < 2 then .error .cannotGuessBounds
  else .ok { c with bounds := some (guessedBounds c.points) }

/-- Source lines 457–458: `cube.coord(coord).guess_bounds()` for every
named coordinate — this updates the INPUT cube's coordinate objects in
place, so the model returns the updated cube. -/
def guessBoundsAll (cube : Cube) : List CName → Except BlendError Cube
  | [] => .ok cube
  | nm :: names =>
    match cube.coord nm with
    | none => .error .coordNotFound
    | some c =>
      match guessBounds c with
      | .error e => .error e
      | .ok c2 =>
        guessBoundsAll
          { cube with
            coords := cube.coords.map (fun x => if x.name == nm then c2 else x) }
          names

/-- Modelled from iris semantics (`cube.slices_over`): the subcube at
position `k` of data dimension `d`: coordinates spanning `d` are
restricted to their `k`-th point (and bounds) and become scalar, other
coordinates have their dimensions renumbered, the data loses dimension
`d`. -/
def sliceAt (cube : Cube) (d : ℕ) (k : ℕ) : Cube :=
  { coords := cube.coords.map (fun c =>
      if d ∈ c.dims then
        { c with points := [c.points.getD k 0],
                 bounds := match c.bounds with
                   | some bs => some [bs.getD k (0, 0)]
                   | none => none,
                 dims := [] }
      else { c with dims := c.dims.map (fun j => if d < j then j - 1 else j) }),
    arr := { shape := cube.arr.shape.eraseIdx d,
             data := fun idx => cube.arr.data (idx.insertIdx d k) } }

namespace TriangularWeightedBlendAcrossAdjacentPoints

/-- `correct_collapsed_coordinates` (source lines 406–431): for every
named coordinate, replace the points of `newCube`'s coordinate with those
of `orig`'s, and the bounds too when `orig` has bounds. This mutates
`newCube`'s coordinates in place; the model returns the updated cube. -/
def correct_collapsed_coordinates (orig newCube : Cube)
    (names : List CName) : Cube :=
  { newCube with coords := newCube.coords.map (fun c =>
      if names.contains c.name then
        match orig.coord c.name with
        | some oc =>
          { c with points := oc.points,
                   bounds := match oc.bounds with
                     | some b => some b
                     | none => c.bounds }
        | none => c
      else c) }

/-- `point = cube_slice.coord(self.coord).points[0]` (source line 468). -/
def slicePoint (cube : Cube) (coordName : CName) (d k : ℕ) : ℚ :=
  match (sliceAt cube d k).coord coordName with
  | some c => c.points.headD 0
  | none => 0

/-- One iteration of the loop of source lines 467–473: slice at point
`k`, obtain weights from the (external) triangular-weights plugin, blend
the WHOLE cube with them, and overwrite the collapsed coordinates from
the slice. The state threads the caller-visible cube (the blend call's
in-place effects) and accumulates the per-point results. -/
def processStep (wplugin : Cube → CName → ℚ → List ℚ) (coordName : CName)
    (coords_to_correct : List CName) (d : ℕ) (st : Cube × List Cube)
    (k : ℕ) : Except BlendError (Cube × List Cube) :=
  match WeightedBlendAcrossWholeDimension.process coordName none st.1
      (some (wplugin st.1 coordName (slicePoint st.1 coordName d k))) with
  | .error e => .error e
  | .ok out =>
    .ok (out.inputAfter,
      st.2 ++ [correct_collapsed_coordinates (sliceAt st.1 d k) out.result
        coords_to_correct])

/-- The loop of source lines 467–473, one `processStep` per point. -/
def processLoop (wplugin : Cube → CName → ℚ → List ℚ) (coordName : CName)
    (coords_to_correct : List CName) (d : ℕ) :
    List ℕ → Cube × List Cube → Except BlendError (Cube × List Cube)
  | [], st => .ok st
  | k :: ks, st =>
    match processStep wplugin coordName coords_to_correct d st k with
    | .error e => .error e
    | .ok st2 => processLoop wplugin coordName coords_to_correct d ks st2

/-- `TriangularWeightedBlendAcrossAdjacentPoints.process` (source lines
433–475). The triangular-weights plugin (`ChooseDefaultWeightsTriangular`,
an external collaborator outside this module) is a parameter. The final
`concatenate_cubes` (also external) builds a new cube from the per-point
results without touching the input, so the model returns the input
cube's final state together with the list of per-point blended cubes. -/
def process (wplugin : Cube → CName → ℚ → List ℚ) (coordName : CName)
    (cube : Cube) : Except BlendError (Cube × List Cube) :=
  match cube.coord coordName with
  | none => .error .coordNotFound
  | some bc =>
    -- lines 449–453: the coordinates sharing the blend dimension
    let coords_to_correct :=
      (cube.coords.filter (fun c => c.dims == bc.dims)).map (fun c => c.name)
    -- lines 456–458: guess_bounds mutates the input cube in place
    match guessBoundsAll cube coords_to_correct with
    | .error e => .error e
    | .ok mutated =>
      processLoop wplugin coordName coords_to_correct (bc.dims.headD 0)
        (List.range bc.points.length) (mutated, [])

end TriangularWeightedBlendAcrossAdjacentPoints

/-! ## Error flow of `WeightedBlendAcrossWholeDimension.process` -/

/-- A percentile-scan failure aborts `process` immediately. -/
theorem process_of_percCheck_error (coordName : CName)
    (adjust : Option (List ℚ → List ℚ)) (cube : Cube)
    (weights : Option (List ℚ)) (e : BlendError)
    (h : percCheck cube = .error e) :
    WeightedBlendAcrossWholeDimension.process coordName adjust cube weights
      = .error e := by
  unfold WeightedBlendAcrossWholeDimension.process
  rw [h]

/-- Every failure of `process` is a percentile-scan failure, a weights
shape mismatch, or a missing blend coordinate. -/
theorem process_error_cases (coordName : CName)
    (adjust : Option (List ℚ → List ℚ)) (cube : Cube)
    (weights : Option (List ℚ)) (e : BlendError)
    (h : WeightedBlendAcrossWholeDimension.process coordName adjust cube
      weights = .error e) :
    percCheck cube = .error e ∨ e = .weightShapeMismatch
      ∨ e = .coordNotFound := by
  unfold WeightedBlendAcrossWholeDimension.process at h
  cases hpc : percCheck cube with
  | error e2 =>
    rw [hpc] at h
    simp only [Except.error.injEq] at h
    subst h
    exact Or.inl rfl
  | ok popt =>
    rw [hpc] at h
    cases hw : weightsCheck cube coordName weights with
    | error e2 =>
      rw [hw] at h
      simp only [Except.error.injEq] at h
      subst h
      right
      cases weights with
      | none => simp [weightsCheck] at hw
      | some ws =>
        cases hco : cube.coord coordName with
        | none =>
          simp only [weightsCheck, hco, Except.error.injEq] at hw
          exact Or.inr hw.symm
        | some bc =>
          simp only [weightsCheck, hco] at hw
          by_cases hlen : ws.length ≠ bc.points.length
          · rw [if_pos hlen] at hw
            simp only [Except.error.injEq] at hw
            exact Or.inl hw.symm
          · rw [if_neg hlen] at hw
            simp at hw
    | ok u =>
      rw [hw] at h
      cases hco : cube.coord coordName with
      | none =>
        rw [hco] at h
        simp only [] at h
        simp only [Except.error.injEq] at h
        exact Or.inr (Or.inr h.symm)
      | some bc =>
        rw [hco] at h
        simp only [] at h
        by_cases hdim : bc.dims = []
        · rw [if_pos hdim] at h
          cases adjust <;> simp at h
        · rw [if_neg hdim] at h
          cases popt <;> cases adjust <;> simp at h

/-- Every error of the percentile scan is a `PercentileDimensionError`. -/
theorem percCheck_error_isPerc (cube : Cube) (e : BlendError)
    (h : percCheck cube = .error e) :
    e.isPercentileDimensionError = true := by
  unfold percCheck at h
  cases hfil : cube.coords.filter
      (fun c => containsChars percentileChars c.name) with
  | nil => rw [hfil] at h; simp at h
  | cons pc rest =>
    cases rest with
    | nil =>
      rw [hfil] at h
      simp only [] at h
      by_cases hd : pc.dims = []
      · rw [if_pos hd] at h
        simp only [Except.error.injEq] at h
        subst h; rfl
      · rw [if_neg hd] at h
        by_cases hpt : pc.points.length < 2
        · rw [if_pos hpt] at h
          simp only [Except.error.injEq] at h
          subst h; rfl
        · rw [if_neg hpt] at h
          simp at h
    | cons pc2 rest2 =>
      rw [hfil] at h
      simp only [Except.error.injEq] at h
      subst h; rfl

/-- Supplied weights of the wrong length make the weights check fail. -/
theorem weightsCheck_mismatch (cube : Cube) (coordName : CName)
    (ws : List ℚ) (bc : Coord) (hco : cube.coord coordName = some bc)
    (hlen : ws.length ≠ bc.points.length) :
    weightsCheck cube coordName (some ws) = .error .weightShapeMismatch := by
  simp only [weightsCheck, hco]
  rw [if_pos hlen]

/-- Supplied weights of the right length pass the weights check. -/
theorem weightsCheck_match (cube : Cube) (coordName : CName)
    (ws : List ℚ) (bc : Coord) (hco : cube.coord coordName = some bc)
    (hlen : ws.length = bc.points.length) :
    weightsCheck cube coordName (some ws) = .ok () := by
  simp only [weightsCheck, hco]
  rw [if_neg (fun hn => hn hlen)]

/-- A `weightShapeMismatch` failure of `process` always comes from the
weights check. -/
theorem process_weightShape_source (coordName : CName)
    (adjust : Option (List ℚ → List ℚ)) (cube : Cube)
    (weights : Option (List ℚ))
    (h : WeightedBlendAcrossWholeDimension.process coordName adjust cube
      weights = .error .weightShapeMismatch) :
    weightsCheck cube coordName weights = .error .weightShapeMismatch := by
  unfold WeightedBlendAcrossWholeDimension.process at h
  cases hpc : percCheck cube with
  | error e2 =>
    rw [hpc] at h
    simp only [Except.error.injEq] at h
    subst h
    have := percCheck_error_isPerc cube _ hpc
    simp [BlendError.isPercentileDimensionError] at this
  | ok popt =>
    rw [hpc] at h
    cases hw : weightsCheck cube coordName weights with
    | error e2 =>
      rw [hw] at h
      simp only [Except.error.injEq] at h
      rw [h]
    | ok u =>
      rw [hw] at h
      cases hco : cube.coord coordName with
      | none =>
        rw [hco] at h
        simp at h
      | some bc =>
        rw [hco] at h
        simp only [] at h
        by_cases hdim : bc.dims = []
        · rw [if_pos hdim] at h
          cases adjust <;> simp at h
        · rw [if_neg hdim] at h
          cases popt <;> cases adjust <;> simp at h

/-- Concrete helper cubes for the orchestrator claims. -/
def timeChars : CName := ['t', 'i', 'm', 'e']

/-- A cube with two percentile-named coordinates (invalid for blending)
and a two-point `time` blend coordinate. -/
def cubeTwoPerc : Cube :=
  ⟨[⟨timeChars, [0, 1], none, [0]⟩,
    ⟨'a' :: percentileChars, [0, 50], none, [1]⟩,
    ⟨'b' :: percentileChars, [0, 50], none, [1]⟩],
    ⟨[2, 2], fun _ => 0⟩⟩

/-- C5 counterexample: when the cube also fails percentile validation,
mismatched weights do NOT produce the `WeightShapeMismatch` error — the
`PercentileDimensionError` fires first, although the supplied weights
(length 3) do not match the blend coordinate's points (length 2). -/
theorem C5_weight_shape_counterexample :
    WeightedBlendAcrossWholeDimension.process timeChars none cubeTwoPerc
        (some [1, 2, 3]) = .error .percTooMany
    ∧ ([1, 2, 3] : List ℚ).length ≠ ([0, 1] : List ℚ).length
    ∧ BlendError.percTooMany ≠ BlendError.weightShapeMismatch := by
  refine ⟨rfl, by norm_num, by simp⟩

/-- C5 (amended): for every cube that passes the percentile validation
and has the blend coordinate, supplied weights whose shape does not
equal the shape of the blend coordinate's points make `process` fail
with `WeightShapeMismatch`; and for every cube whatsoever, `process`
never fails with this error when the shapes match. -/
theorem C5_weight_shape_validation (coordName : CName)
    (adjust : Option (List ℚ → List ℚ)) (cube : Cube) (ws : List ℚ) :
    ((∃ popt, percCheck cube = .ok popt) →
      ∀ bc, cube.coord coordName = some bc → ws.length ≠ bc.points.length →
        WeightedBlendAcrossWholeDimension.process coordName adjust cube
          (some ws) = .error .weightShapeMismatch)
    ∧ (∀ bc, cube.coord coordName = some bc → ws.length = bc.points.length →
        ∀ e, WeightedBlendAcrossWholeDimension.process coordName adjust cube
          (some ws) = .error e → e ≠ .weightShapeMismatch) := by
  constructor
  · rintro ⟨popt, hpc⟩ bc hco hlen
    unfold WeightedBlendAcrossWholeDimension.process
    rw [hpc, weightsCheck_mismatch cube coordName ws bc hco hlen]
  · intro bc hco hlen e herr hcontra
    subst hcontra
    have hsrc := process_weightShape_source coordName adjust cube (some ws) herr
    rw [weightsCheck_match cube coordName ws bc hco hlen] at hsrc
    simp at hsrc

/-- Witness for C5 at a concrete input: a valid mean-mode cube with
mismatched weights fails with `WeightShapeMismatch`. -/
theorem C5_weight_shape_validation_witness :
    WeightedBlendAcrossWholeDimension.process timeChars none
        ⟨[⟨timeChars, [0, 1], none, [0]⟩], ⟨[2], fun _ => 0⟩⟩
        (some [1, 2, 3]) = .error .weightShapeMismatch :=
  (C5_weight_shape_validation timeChars none
      ⟨[⟨timeChars, [0, 1], none, [0]⟩], ⟨[2], fun _ => 0⟩⟩ [1, 2, 3]).1
    ⟨none, rfl⟩ ⟨timeChars, [0, 1], none, [0]⟩ rfl (by norm_num)

/-- C6: `WeightedBlendAcrossWholeDimension.process` fails with a
`PercentileDimensionError` exactly when the cube has more than one
coordinate whose name contains `"percentile"`, or its sole
percentile-named coordinate spans no data dimension, or that coordinate
has fewer than two points; in particular with zero percentile-named
coordinates (mean mode, computed in the C8 theorem) this error never
occurs. -/
theorem C6_percentile_validation (coordName : CName)
    (adjust : Option (List ℚ → List ℚ)) (cube : Cube)
    (weights : Option (List ℚ)) :
    (∃ e, WeightedBlendAcrossWholeDimension.process coordName adjust cube
        weights = .error e ∧ e.isPercentileDimensionError = true)
    ↔ (1 < (cube.coords.filter
          (fun c => containsChars percentileChars c.name)).length
      ∨ ∃ pc, cube.coords.filter
          (fun c => containsChars percentileChars c.name) = [pc]
        ∧ (pc.dims = [] ∨ pc.points.length < 2)) := by
  constructor
  · rintro ⟨e, herr, hperc⟩
    rcases process_error_cases coordName adjust cube weights e herr with
      hpc | rfl | rfl
    · unfold percCheck at hpc
      cases hfil : cube.coords.filter
          (fun c => containsChars percentileChars c.name) with
      | nil => rw [hfil] at hpc; simp at hpc
      | cons pc rest =>
        cases rest with
        | nil =>
          rw [hfil] at hpc
          simp only [] at hpc
          right
          refine ⟨pc, rfl, ?_⟩
          by_cases hd : pc.dims = []
          · exact Or.inl hd
          · rw [if_neg hd] at hpc
            by_cases hpt : pc.points.length < 2
            · exact Or.inr hpt
            · rw [if_neg hpt] at hpc
              simp at hpc
        | cons pc2 rest2 =>
          left
          simp only [List.length_cons]
          omega
    · simp [BlendError.isPercentileDimensionError] at hperc
    · simp [BlendError.isPercentileDimensionError] at hperc
  · rintro (hlen | ⟨pc, hfil, hcond⟩)
    · refine ⟨.percTooMany, ?_, rfl⟩
      apply process_of_percCheck_error
      unfold percCheck
      cases hfil : cube.coords.filter
          (fun c => containsChars percentileChars c.name) with
      | nil => rw [hfil] at hlen; simp at hlen
      | cons pc rest =>
        cases rest with
        | nil => rw [hfil] at hlen; simp at hlen
        | cons pc2 rest2 => rfl
    · by_cases hd : pc.dims = []
      · refine ⟨.percNotDimCoord, ?_, rfl⟩
        apply process_of_percCheck_error
        unfold percCheck
        rw [hfil]
        simp only []
        rw [if_pos hd]
      · have hpt : pc.points.length < 2 := by
          rcases hcond with hcond | hcond
          · exact absurd hcond hd
          · exact hcond
        refine ⟨.percTooFewPoints, ?_, rfl⟩
        apply process_of_percCheck_error
        unfold percCheck
        rw [hfil]
        simp only []
        rw [if_neg hd, if_pos hpt]

/-- Witness for C6 at a concrete input: a cube with two percentile-named
coordinates fails with a `PercentileDimensionError`. -/
theorem C6_percentile_validation_witness :
    ∃ e, WeightedBlendAcrossWholeDimension.process
        ['t', 'i', 'm', 'e'] none
        ⟨[⟨['t', 'i', 'm', 'e'], [0, 1], none, [0]⟩,
          ⟨'a' :: percentileChars, [0, 50], none, [1]⟩,
          ⟨'b' :: percentileChars, [0, 50], none, [1]⟩],
          ⟨[2, 2], fun _ => 0⟩⟩ none = .error e
      ∧ e.isPercentileDimensionError = true := by
  apply (C6_percentile_validation _ _ _ _).mpr
  left
  simp [containsChars, startsWithChars, percentileChars]

/-- C7 counterexample: a cube whose blend coordinate is scalar but which
has two percentile-named coordinates RAISES (the percentile validation
runs before the scalar-coordinate test) instead of warning and returning
the input unchanged. -/
theorem C7_scalar_counterexample :
    WeightedBlendAcrossWholeDimension.process timeChars none
        ⟨[⟨timeChars, [7], none, []⟩,
          ⟨'a' :: percentileChars, [0, 50], none, [0]⟩,
          ⟨'b' :: percentileChars, [0, 50], none, [0]⟩],
          ⟨[2], fun _ => 0⟩⟩ none
      = .error .percTooMany := rfl

/-- C7 (amended): for every cube that passes the percentile validation
and the weights check and whose blend coordinate is scalar (spans no
data dimension), `process` emits a warning and returns a result whose
data values equal the input cube's data values unchanged, rather than
raising an error. -/
theorem C7_scalar_blend_coordinate (coordName : CName)
    (adjust : Option (List ℚ → List ℚ)) (cube : Cube)
    (weights : Option (List ℚ)) (popt : Option Coord) (bc : Coord)
    (hpc : percCheck cube = .ok popt)
    (hw : weightsCheck cube coordName weights = .ok ())
    (hco : cube.coord coordName = some bc) (hdim : bc.dims = []) :
    ∃ out, WeightedBlendAcrossWholeDimension.process coordName adjust cube
        weights = .ok out
      ∧ out.warned = true ∧ out.result.arr = cube.arr := by
  unfold WeightedBlendAcrossWholeDimension.process
  rw [hpc, hw, hco]
  simp only []
  rw [if_pos hdim]
  cases adjust with
  | none => exact ⟨_, rfl, rfl, rfl⟩
  | some f => exact ⟨_, rfl, rfl, rfl⟩

/-- Witness for C7 at a concrete input. -/
theorem C7_scalar_blend_coordinate_witness :
    ∃ out, WeightedBlendAcrossWholeDimension.process timeChars none
        ⟨[⟨timeChars, [7], none, []⟩], ⟨[2], fun _ => 0⟩⟩ none = .ok out
      ∧ out.warned = true
      ∧ out.result.arr = (⟨[⟨timeChars, [7], none, []⟩],
          ⟨[2], fun _ => 0⟩⟩ : Cube).arr :=
  C7_scalar_blend_coordinate timeChars none
    ⟨[⟨timeChars, [7], none, []⟩], ⟨[2], fun _ => 0⟩⟩ none none
    ⟨timeChars, [7], none, []⟩ rfl rfl rfl rfl

/-- C8: in mean mode (no percentile-named coordinate), `process` computes
the weighted arithmetic mean along the blend dimension: at each point the
result equals the sum of value times weight divided by the sum of the
weights. The concrete instance (data `[1, 2, 3]`, weights
`[0.2, 0.3, 0.5]`, result `2.3`) is the witness theorem. -/
theorem C8_mean_mode (coordName : CName) (cube : Cube) (ws : List ℚ)
    (bc : Coord) (d : ℕ)
    (hnoperc : cube.coords.filter
      (fun c => containsChars percentileChars c.name) = [])
    (hco : cube.coord coordName = some bc) (hdims : bc.dims = [d])
    (hlen : ws.length = bc.points.length) :
    ∃ out, WeightedBlendAcrossWholeDimension.process coordName none cube
        (some ws) = .ok out
      ∧ ∀ idx, out.result.arr.data idx
        = ((List.range (cube.arr.shape.getD d 0)).map (fun k =>
            cube.arr.data (idx.insertIdx d k) * ws.getD k 0)).sum
          / ((List.range (cube.arr.shape.getD d 0)).map
              (fun k => ws.getD k 0)).sum := by
  have hpc : percCheck cube = .ok none := by
    unfold percCheck
    rw [hnoperc]
  unfold WeightedBlendAcrossWholeDimension.process
  rw [hpc, weightsCheck_match cube coordName ws bc hco hlen, hco]
  simp only []
  rw [if_neg (by simp [hdims])]
  refine ⟨_, rfl, ?_⟩
  intro idx
  simp only [hdims, List.headD, collapseCubeWith, weightedMeanArr]

/-- Witness for C8 at the concrete input of the claim: data `[1, 2, 3]`
along a three-point blend dimension with weights `[1/5, 3/10, 1/2]`
yields `23/10`. -/
theorem C8_mean_mode_witness :
    ∃ out, WeightedBlendAcrossWholeDimension.process timeChars none
        ⟨[⟨timeChars, [0, 1, 2], none, [0]⟩],
          ⟨[3], fun idx => (idx.getD 0 0 : ℚ) + 1⟩⟩
        (some [1/5, 3/10, 1/2]) = .ok out
      ∧ out.result.arr.data [] = 23/10 := by
  obtain ⟨out, hok, hdata⟩ := C8_mean_mode timeChars
    ⟨[⟨timeChars, [0, 1, 2], none, [0]⟩],
      ⟨[3], fun idx => (idx.getD 0 0 : ℚ) + 1⟩⟩
    [1/5, 3/10, 1/2] ⟨timeChars, [0, 1, 2], none, [0]⟩ 0 rfl rfl rfl rfl
  refine ⟨out, hok, ?_⟩
  rw [hdata []]
  norm_num [List.range_succ, List.insertIdx]

/-! ## Input-state effects (C4) -/

/-- Without `coord_adjust`, a successful whole-dimension blend leaves the
caller's cube untouched. -/
theorem process_inputAfter_none (coordName : CName) (cube : Cube)
    (weights : Option (List ℚ)) (out : ProcessOutcome)
    (h : WeightedBlendAcrossWholeDimension.process coordName none cube
      weights = .ok out) : out.inputAfter = cube := by
  unfold WeightedBlendAcrossWholeDimension.process at h
  cases hpc : percCheck cube with
  | error e => rw [hpc] at h; simp at h
  | ok popt =>
    rw [hpc] at h
    cases hw : weightsCheck cube coordName weights with
    | error e => rw [hw] at h; simp at h
    | ok u =>
      rw [hw] at h
      cases hco : cube.coord coordName with
      | none => rw [hco] at h; simp at h
      | some bc =>
        rw [hco] at h
        simp only [] at h
        by_cases hdim : bc.dims = []
        · rw [if_pos hdim] at h
          simp only [Except.ok.injEq] at h
          subst h
          rfl
        · rw [if_neg hdim] at h
          cases popt with
          | none =>
            simp only [Except.ok.injEq] at h
            subst h
            rfl
          | some pc =>
            simp only [Except.ok.injEq] at h
            subst h
            rfl

/-- With a non-scalar blend coordinate, a successful whole-dimension
blend leaves the caller's cube untouched even when `coord_adjust` is
configured (the collapse works on a copy). -/
theorem process_inputAfter_nonscalar (coordName : CName)
    (adjust : Option (List ℚ → List ℚ)) (cube : Cube)
    (weights : Option (List ℚ)) (out : ProcessOutcome) (bc : Coord)
    (hco : cube.coord coordName = some bc) (hdim : bc.dims ≠ [])
    (h : WeightedBlendAcrossWholeDimension.process coordName adjust cube
      weights = .ok out) : out.inputAfter = cube := by
  unfold WeightedBlendAcrossWholeDimension.process at h
  cases hpc : percCheck cube with
  | error e => rw [hpc] at h; simp at h
  | ok popt =>
    rw [hpc] at h
    cases hw : weightsCheck cube coordName weights with
    | error e => rw [hw] at h; simp at h
    | ok u =>
      rw [hw, hco] at h
      simp only [] at h
      rw [if_neg hdim] at h
      cases popt <;> cases adjust <;>
        (simp only [Except.ok.injEq] at h; subst h; rfl)

/-- In a coordinate list with pairwise distinct names, names identify
coordinates. -/
theorem coord_eq_of_name_eq (coords : List Coord)
    (h : (coords.map Coord.name).Nodup) :
    ∀ x y, x ∈ coords → y ∈ coords → x.name = y.name → x = y := by
  induction coords with
  | nil => intro x y hx; simp at hx
  | cons c t ih =>
    intro x y hx hy hname
    simp only [List.map_cons, List.nodup_cons] at h
    rcases List.mem_cons.mp hx with rfl | hx2
    · rcases List.mem_cons.mp hy with rfl | hy2
      · rfl
      · have hmem : y.name ∈ t.map Coord.name :=
          List.mem_map_of_mem Coord.name hy2
        rw [← hname] at hmem
        exact absurd hmem h.1
    · rcases List.mem_cons.mp hy with rfl | hy2
      · have hmem : x.name ∈ t.map Coord.name :=
          List.mem_map_of_mem Coord.name hx2
        rw [hname] at hmem
        exact absurd hmem h.1
      · exact ih h.2 x y hx2 hy2 hname

/-- `guess_bounds` only changes the bounds. -/
theorem guessBounds_skeleton (c c2 : Coord) (h : guessBounds c = .ok c2) :
    c2.name = c.name ∧ c2.points = c.points ∧ c2.dims = c.dims := by
  unfold guessBounds at h
  by_cases hb : c.bounds.isSome
  · rw [if_pos hb] at h; simp at h
  · rw [if_neg hb] at h
    by_cases hp : c.points.length < 2
    · rw [if_pos hp] at h; simp at h
    · rw [if_neg hp] at h
      simp only [Except.ok.injEq] at h
      subst h
      exact ⟨rfl, rfl, rfl⟩

/-- The `guess_bounds` loop over the input cube (source lines 457–458)
changes only bounds: the data array and every coordinate's name, points
and dimension mapping survive (for a cube with uniquely named
coordinates). -/
theorem guessBoundsAll_skeleton :
    ∀ (names : List CName) (cube out : Cube),
      (cube.coords.map Coord.name).Nodup →
      guessBoundsAll cube names = .ok out →
      out.arr = cube.arr
      ∧ out.coords.map (fun c => (c.name, c.points, c.dims))
          = cube.coords.map (fun c => (c.name, c.points, c.dims))
  | [], cube, out, _, h => by
    simp only [guessBoundsAll, Except.ok.injEq] at h
    subst h
    exact ⟨rfl, rfl⟩
  | nm :: names, cube, out, hnod, h => by
    unfold guessBoundsAll at h
    cases hco : cube.coord nm with
    | none => rw [hco] at h; simp at h
    | some c =>
      rw [hco] at h
      simp only [] at h
      cases hgb : guessBounds c with
      | error e => rw [hgb] at h; simp at h
      | ok c2 =>
        rw [hgb] at h
        obtain ⟨hn2, hp2, hd2⟩ := guessBounds_skeleton c c2 hgb
        have hcmem : c ∈ cube.coords := List.mem_of_find?_eq_some hco
        have hcname : c.name = nm := by
          have := List.find?_some hco
          exact eq_of_beq this
        have hrep : (cube.coords.map
              (fun x => if x.name == nm then c2 else x)).map
              (fun c => (c.name, c.points, c.dims))
            = cube.coords.map (fun c => (c.name, c.points, c.dims)) := by
          rw [List.map_map]
          apply List.map_congr_left
          intro x hx
          simp only [Function.comp_def]
          by_cases hxn : (x.name == nm) = true
          · rw [if_pos hxn]
            have hxeq : x = c :=
              coord_eq_of_name_eq cube.coords hnod x c hx hcmem
                (by rw [eq_of_beq hxn, hcname])
            rw [hn2, hp2, hd2, hxeq]
          · rw [if_neg hxn]
        have hnod2 : ((cube.coords.map
              (fun x => if x.name == nm then c2 else x)).map Coord.name).Nodup := by
          have hnames : (cube.coords.map
                (fun x => if x.name == nm then c2 else x)).map Coord.name
              = cube.coords.map Coord.name := by
            rw [List.map_map]
            apply List.map_congr_left
            intro x hx
            simp only [Function.comp_def]
            by_cases hxn : (x.name == nm) = true
            · rw [if_pos hxn, hn2, hcname, eq_of_beq hxn]
            · rw [if_neg hxn]
          rw [hnames]
          exact hnod
        have ih := guessBoundsAll_skeleton names _ out hnod2 h
        exact ⟨ih.1, by rw [ih.2]; exact hrep⟩

/-- The per-point loop of the triangular variant never changes the
caller-visible cube: every iteration blends with no `coord_adjust`. -/
theorem processLoop_state (wplugin : Cube → CName → ℚ → List ℚ)
    (coordName : CName) (names : List CName) (d : ℕ) :
    ∀ (ks : List ℕ) (st out : Cube × List Cube),
      TriangularWeightedBlendAcrossAdjacentPoints.processLoop wplugin
        coordName names d ks st = .ok out → out.1 = st.1
  | [], st, out, h => by
    simp only [TriangularWeightedBlendAcrossAdjacentPoints.processLoop,
      Except.ok.injEq] at h
    subst h
    rfl
  | k :: ks, st, out, h => by
    unfold TriangularWeightedBlendAcrossAdjacentPoints.processLoop at h
    cases hstep : TriangularWeightedBlendAcrossAdjacentPoints.processStep
        wplugin coordName names d st k with
    | error e => rw [hstep] at h; simp at h
    | ok st2 =>
      rw [hstep] at h
      have ih := processLoop_state wplugin coordName names d ks st2 out h
      rw [ih]
      unfold TriangularWeightedBlendAcrossAdjacentPoints.processStep at hstep
      cases hinner : WeightedBlendAcrossWholeDimension.process coordName none
          st.1 (some (wplugin st.1 coordName
            (TriangularWeightedBlendAcrossAdjacentPoints.slicePoint st.1
              coordName d k))) with
      | error e => rw [hinner] at hstep; simp at hstep
      | ok inner =>
        rw [hinner] at hstep
        simp only [Except.ok.injEq] at hstep
        subst hstep
        exact process_inputAfter_none coordName st.1 _ inner hinner

/-- A cube with a single scalar (dimensionless) time coordinate. -/
def scalarCubeC4 : Cube :=
  ⟨[⟨timeChars, [5], none, []⟩], ⟨[], fun _ => 0⟩⟩

/-- A cube with one length-2 time dimension coordinate without bounds. -/
def tcubeC4 : Cube :=
  ⟨[⟨timeChars, [0, 1], none, [0]⟩], ⟨[2], fun idx => idx.getD 0 0⟩⟩

/-- `tcubeC4` after the triangular variant wrote guessed bounds into it. -/
def mutCubeC4 : Cube :=
  ⟨[⟨timeChars, [0, 1], some [(-(1/2), 1/2), (1/2, 3/2)], [0]⟩], tcubeC4.arr⟩

/-- Claim C4 counterexample: the orchestrators DO mutate caller-owned
input state. (a) `WeightedBlendAcrossWholeDimension.process` on a cube
whose blend coordinate is scalar, with a `coord_adjust` function
configured, rewrites the points of the input cube's scalar coordinates in
place (source lines 315–322 alias the input, and lines 356–362 then write
through the alias): the caller's coordinate points become `[99]` though
the input had `[5]`. (b) `TriangularWeightedBlendAcrossAdjacentPoints.process`
calls `guess_bounds()` on the input cube's own coordinate objects (source
lines 457–458): after the call the caller's time coordinate carries the
guessed bounds `[(-1/2, 1/2), (1/2, 3/2)]` though the input had none. -/
theorem C4_mutation_counterexample :
    (WeightedBlendAcrossWholeDimension.process timeChars
        (some (fun _ => [99])) scalarCubeC4 none).toOption.map
        (fun out => out.inputAfter.coords.map Coord.points) = some [[99]]
    ∧ scalarCubeC4.coords.map Coord.points = [[5]]
    ∧ (TriangularWeightedBlendAcrossAdjacentPoints.process
          (fun _ _ _ => [1/2, 1/2]) timeChars tcubeC4).toOption.map
          (fun r => r.1.coords.map Coord.bounds)
        = some [some [(-(1/2), 1/2), (1/2, 3/2)]]
    ∧ tcubeC4.coords.map Coord.bounds = [none] := by
  refine ⟨rfl, rfl, ?_, rfl⟩
  have hbnd : guessedBounds [0, 1] = [(-(1/2), 1/2), (1/2, 3/2)] := by
    norm_num [guessedBounds, List.range_succ]
  have hgb : guessBoundsAll tcubeC4 [timeChars] = .ok mutCubeC4 := by
    show Except.ok
        (⟨[⟨timeChars, [0, 1], some (guessedBounds [0, 1]), [0]⟩],
          tcubeC4.arr⟩ : Cube) = .ok mutCubeC4
    rw [hbnd]
    rfl
  show Option.map (fun r => r.1.coords.map Coord.bounds)
    (Except.toOption (match guessBoundsAll tcubeC4 [timeChars] with
      | .error e => Except.error e
      | .ok mutated =>
        TriangularWeightedBlendAcrossAdjacentPoints.processLoop
          (fun _ _ _ => [1/2, 1/2]) timeChars [timeChars] 0 (List.range 2)
          (mutated, [])))
    = some [some [(-(1/2), 1/2), (1/2, 3/2)]]
  rw [hgb]
  rfl

/-- Claim C4, amended. The no-mutation guarantee holds in these cases:
(1) `WeightedBlendAcrossWholeDimension.process` without a `coord_adjust`
function never changes the caller's cube; (2) with any `coord_adjust`,
it never changes the caller's cube when the blend coordinate is a
genuine dimension coordinate (not scalar); (3) the triangular variant
preserves the input cube's data array and every coordinate's name,
points and dimension mapping (for a cube with uniquely named
coordinates) — only coordinate BOUNDS may be added in place by its
`guess_bounds` loop. It does NOT hold unconditionally: the scalar path
with `coord_adjust` rewrites input points, and the triangular variant
writes guessed bounds into the input. -/
theorem C4_no_mutation_cases :
    (∀ (coordName : CName) (cube : Cube) (weights : Option (List ℚ))
        (out : ProcessOutcome),
      WeightedBlendAcrossWholeDimension.process coordName none cube weights
          = .ok out → out.inputAfter = cube)
    ∧ (∀ (coordName : CName) (adjust : Option (List ℚ → List ℚ))
        (cube : Cube) (weights : Option (List ℚ)) (out : ProcessOutcome)
        (bc : Coord),
      cube.coord coordName = some bc → bc.dims ≠ [] →
      WeightedBlendAcrossWholeDimension.process coordName adjust cube
          weights = .ok out → out.inputAfter = cube)
    ∧ (∀ (wplugin : Cube → CName → ℚ → List ℚ) (coordName : CName)
        (cube : Cube) (out : Cube × List Cube),
      (cube.coords.map Coord.name).Nodup →
      TriangularWeightedBlendAcrossAdjacentPoints.process wplugin coordName
          cube = .ok out →
      out.1.arr = cube.arr
      ∧ out.1.coords.map (fun c => (c.name, c.points, c.dims))
          = cube.coords.map (fun c => (c.name, c.points, c.dims))) := by
  refine ⟨process_inputAfter_none, ?_, ?_⟩
  · intro coordName adjust cube weights out bc hco hdim h
    exact process_inputAfter_nonscalar coordName adjust cube weights out bc
      hco hdim h
  · intro wplugin coordName cube out hnod h
    unfold TriangularWeightedBlendAcrossAdjacentPoints.process at h
    cases hco : cube.coord coordName with
    | none => rw [hco] at h; simp at h
    | some bc =>
      rw [hco] at h
      simp only [] at h
      cases hgb : guessBoundsAll cube
          ((cube.coords.filter (fun c => c.dims == bc.dims)).map
            (fun c => c.name)) with
      | error e => rw [hgb] at h; simp at h
      | ok mutated =>
        rw [hgb] at h
        have hsk := guessBoundsAll_skeleton _ cube mutated hnod hgb
        have hst := processLoop_state wplugin coordName _ (bc.dims.headD 0)
          (List.range bc.points.length) (mutated, []) out h
        rw [hst]
        exact hsk

/-- Witness for C4: the whole-dimension blend along the genuine (length-2)
time dimension of `tcubeC4` leaves the caller's cube untouched. -/
theorem C4_no_mutation_cases_witness :
    (ProcessOutcome.mk tcubeC4
      (collapseCubeWith tcubeC4 0 (weightedMeanArr tcubeC4.arr 0 none))
      false).inputAfter = tcubeC4 :=
  C4_no_mutation_cases.1 timeChars tcubeC4 none _ rfl

end Improver
